import Mathlib

/-!
# SQUAT `readQdist`: the FASTQ scan of `ProbeFASTQ`

A shallow embedding of `library/preQ/readQdist.cpp`.

* The input is the list of buffers that the successive `fgets` calls deliver, one per line (a
  line of `LINE_BUF_SIZE - 1` bytes or more arrives as several buffers). A buffer is a list of
  bytes, and the C string held in `line_buf` is the buffer up to its first NUL byte.
* `char` is taken as the signed 8-bit type of the x86 ABI; on 7-bit characters the code behaves
  the same where `char` is unsigned. An array access whose index is out of bounds and the
  conversion of a NaN to an integer type are undefined behaviour: the scan then has the
  outcome `Outcome.undefined`.
* The counters are `size_t`; they are bounded by the size of the input file, so they never
  wrap and are modelled as natural numbers.
* The two `double` expressions of the scan, `round(100.0*GC/(GC+AT))` and
  `floor(200*HiQCnt/QLen1)`, have a dividend below `10^7` and a divisor below `10^4`: the
  correctly rounded quotient lies on the same side of every integer and half-integer as the
  exact quotient (and is exact when the quotient is one), so both are modelled by exact
  integer arithmetic. The fractions of the report are modelled as exact rationals.
-/

namespace SQUAT

/-! ## Constants -/

def LINE_BUF_SIZE : Nat := 10000
def ALPHABET_SIZE : Nat := 256
def QSCORE_SIZE : Nat := 42
def QCharOffset : Int := 33
def HiQCellSize : Nat := 200
def HiQParamSize : Nat := 2
def HiQTh : List Int := [15, 20]

/-! ## C strings and arrays -/

/-- A byte of the input file. -/
abbrev Byte := Fin 256

/-- The bytes of an ASCII string literal, for writing inputs. -/
def bytes (s : String) : List Byte := s.toList.map (fun ch => Fin.ofNat ch.toNat)

/-- The value of a `char` holding byte `b` (signed 8-bit). -/
def charVal (b : Byte) : Int := if b.val < 128 then (b.val : Int) else (b.val : Int) - 256

/-- Conversion of an `int` to `char` (signed 8-bit, wrapping). -/
def toChar (i : Int) : Int := (i + 128) % 256 - 128

/-- The C string in `line_buf` after `fgets` stored the buffer `buf`: up to the first NUL. -/
def cstr (buf : List Byte) : List Byte := buf.takeWhile (fun b => b != 0)

/-- The byte `line_buf[0]` after `fgets` stored `buf` (the terminating NUL if `buf` is empty). -/
def firstByte (buf : List Byte) : Byte := buf.headD 0

/-- The C string in `line_buf` after `strtok(line_buf, "\n")`: `strtok` skips the leading
delimiters, and if a token follows it overwrites the first delimiter after the token with NUL;
if no token follows, it returns NULL and leaves the string as it is. -/
def strtokNL (s : List Byte) : List Byte :=
  s.takeWhile (fun b => b == 10) ++ (s.dropWhile (fun b => b == 10)).takeWhile (fun b => b != 10)

/-- Add one to entry `i` of an array (no change when `i` is out of range). -/
def bump : List Nat → Nat → List Nat
  | [], _ => []
  | x :: xs, 0 => (x + 1) :: xs
  | x :: xs, i + 1 => x :: bump xs i

/-- The statement `a[i]++` for a C array `a`: undefined when `i` is out of bounds. -/
def incr (a : List Nat) (i : Int) : Option (List Nat) :=
  if 0 ≤ i ∧ i < a.length then some (bump a i.toNat) else none

/-- The statement `m[j][i]++` for a two-dimensional C array. -/
def incr2 : List (List Nat) → Nat → Int → Option (List (List Nat))
  | [], _, _ => none
  | r :: rs, 0, i => (incr r i).map (fun r1 => r1 :: rs)
  | r :: rs, j + 1, i => (incr2 rs j i).map (fun rs1 => r :: rs1)

/-! ## The aggregate state of the scan -/

/-- The counting arrays and running scalars of `ProbeFASTQ`. -/
structure Agg where
  AlphabetCount : List Nat
  TotalLen : Nat
  ReadCount : Nat
  MinSeqLen : Nat
  MaxSeqLen : Nat
  QCount : List Nat
  MinQCount : List Nat
  HiQPercentCount : List (List Nat)
  CntGCRead : List Nat
  deriving DecidableEq

/-- The state at the declarations of `ProbeFASTQ`. -/
def Agg.init : Agg where
  AlphabetCount := List.replicate ALPHABET_SIZE 0
  TotalLen := 0
  ReadCount := 0
  MinSeqLen := LINE_BUF_SIZE
  MaxSeqLen := 0
  QCount := List.replicate QSCORE_SIZE 0
  MinQCount := List.replicate QSCORE_SIZE 0
  HiQPercentCount := List.replicate HiQParamSize (List.replicate (HiQCellSize + 1) 0)
  CntGCRead := List.replicate 101 0

/-- The counting arrays have their declared sizes. -/
def Agg.WF (s : Agg) : Prop :=
  s.AlphabetCount.length = ALPHABET_SIZE ∧ s.QCount.length = QSCORE_SIZE ∧
    s.MinQCount.length = QSCORE_SIZE ∧ s.CntGCRead.length = 101 ∧
    s.HiQPercentCount.length = HiQParamSize ∧
    ∀ k, k < HiQParamSize → (s.HiQPercentCount.getD k []).length = HiQCellSize + 1

/-- The counts of the aggregate agree with its totals. -/
def Agg.Balanced (s : Agg) : Prop :=
  s.AlphabetCount.sum = s.TotalLen ∧ s.QCount.sum = s.TotalLen ∧
    s.MinQCount.sum = s.ReadCount ∧ s.CntGCRead.sum = s.ReadCount ∧
    ∀ k, k < HiQParamSize → (s.HiQPercentCount.getD k []).sum = s.ReadCount

/-- How a scan ends. -/
inductive Outcome where
  /-- the loop ran to the end of the stream; the report is derived from the state -/
  | done (s : Agg)
  /-- the message `FASTQ file format error at line#<line>` and return false; `s` is the state
  at that point -/
  | formatError (line : Nat) (s : Agg)
  /-- the message `FASTQ file format error at line#<line>: incorrect length of Q-string` and
  return false -/
  | lengthError (line : Nat) (s : Agg)
  /-- the scan ran into undefined behaviour -/
  | undefined
  deriving DecidableEq

/-! ## The sequence line -/

/-- The loop over the sequence characters (source lines 178-185); the state is
`(AlphabetCount, GCcnt, ATcnt)`. -/
def seqLoop : List Byte → List Nat × Nat × Nat → Option (List Nat × Nat × Nat)
  | [], st => some st
  | c :: cs, (ac, gc, at1) =>
    match incr ac (charVal c) with
    | none => none
    | some ac1 =>
      if c = 71 ∨ c = 67 then seqLoop cs (ac1, gc + 1, at1)
      else if c = 65 ∨ c = 84 then seqLoop cs (ac1, gc, at1 + 1)
      else seqLoop cs (ac1, gc, at1)

/-- The value `(char)round(100.0*(double)GCcnt/(double)(GCcnt+ATcnt))`: the quotient rounded to
the nearest integer, halves away from zero; `0.0/0.0` is a NaN, whose conversion is undefined. -/
def GCvalue (GCcnt ATcnt : Nat) : Option Int :=
  if GCcnt + ATcnt = 0 then none
  else some (toChar (((200 * GCcnt + (GCcnt + ATcnt)) / (2 * (GCcnt + ATcnt)) : Nat) : Int))

/-- The work on the second line of a record (source lines 167-187), `seq` being the C string
left in `line_buf` by `strtok`. -/
def seqUpdate (s : Agg) (seq : List Byte) : Option Agg :=
  let SeqLen1 := seq.length
  match seqLoop seq (s.AlphabetCount, 0, 0) with
  | none => none
  | some (ac, GCcnt, ATcnt) =>
    match GCvalue GCcnt ATcnt with
    | none => none
    | some g =>
      match incr s.CntGCRead g with
      | none => none
      | some gcr =>
        some { s with
          TotalLen := s.TotalLen + SeqLen1
          ReadCount := s.ReadCount + 1
          MinSeqLen := if s.MinSeqLen < SeqLen1 then s.MinSeqLen else SeqLen1
          MaxSeqLen := if s.MaxSeqLen > SeqLen1 then s.MaxSeqLen else SeqLen1
          AlphabetCount := ac
          CntGCRead := gcr }

/-- The number of `G` and `C` in a sequence. -/
def gcCount (seq : List Byte) : Nat := seq.countP (fun c => c == 71 || c == 67)

/-- The number of `A` and `T` in a sequence. -/
def atCount (seq : List Byte) : Nat := seq.countP (fun c => c == 65 || c == 84)

/-- The bucket of `CntGCRead` for a sequence: `100*GC/(GC+AT)` rounded to the nearest integer,
halves up, in integer arithmetic. -/
def gcIndex (seq : List Byte) : Nat :=
  (200 * gcCount seq + (gcCount seq + atCount seq)) / (2 * (gcCount seq + atCount seq))

/-! ## The quality line -/

/-- The decoded score `char tmpq = line_buf[i]-QCharOffset` of the quality byte `c`. -/
def tmpq (c : Byte) : Int := toChar (charVal c - QCharOffset)

/-- The inner loop `for j: if (tmpq >= HiQTh[j]) HiQCnt[j]++` (source lines 221-223). -/
def hiqStep (t : Int) : List Int → List Nat → List Nat
  | th :: ths, h :: hs => (if t ≥ th then h + 1 else h) :: hiqStep t ths hs
  | _, _ => []

/-- The loop over the quality characters (source lines 216-224); the state is
`(QCount, minq1, HiQCnt)`. -/
def qualLoop : List Byte → List Nat × Int × List Nat → Option (List Nat × Int × List Nat)
  | [], st => some st
  | c :: cs, (qc, minq1, hi) =>
    match incr qc (tmpq c) with
    | none => none
    | some qc1 =>
      qualLoop cs (qc1, (if minq1 < tmpq c then minq1 else tmpq c), hiqStep (tmpq c) HiQTh hi)

/-- The value `(int)floor(HiQCellSize*(double)HiQCnt[j]/(double)QLen1)`; with `QLen1 == 0` the
quotient is a NaN, whose conversion is undefined. -/
def HiqpTileNo (HiQCnt QLen1 : Nat) : Option Int :=
  if QLen1 = 0 then none else some ((HiQCellSize * HiQCnt / QLen1 : Nat) : Int)

/-- The loop `for j: HiQPercentCount[j][HiqpTileNo]++` (source lines 230-237), from index `j`
on, over the remaining entries of `HiQCnt`. -/
def tileLoop (QLen1 : Nat) : List Nat → Nat → List (List Nat) → Option (List (List Nat))
  | [], _, m => some m
  | h :: hs, j, m =>
    match HiqpTileNo h QLen1 with
    | none => none
    | some t =>
      match incr2 m j t with
      | none => none
      | some m1 => tileLoop QLen1 hs (j + 1) m1

/-- The work on the fourth line of a record after the length check (source lines 213-237),
`q` being the C string left in `line_buf` by `strtok`. -/
def qualUpdate (s : Agg) (q : List Byte) : Option Agg :=
  let QLen1 := q.length
  match qualLoop q (s.QCount, (QSCORE_SIZE : Int) - 1, List.replicate HiQParamSize 0) with
  | none => none
  | some (qc, minq1, HiQCnt) =>
    match incr s.MinQCount minq1 with
    | none => none
    | some mq =>
      match tileLoop QLen1 HiQCnt 0 s.HiQPercentCount with
      | none => none
      | some m => some { s with QCount := qc, MinQCount := mq, HiQPercentCount := m }

/-- The number of quality bytes of `q` whose decoded score is at least `T`. -/
def hiQCount (T : Int) (q : List Byte) : Nat := q.countP (fun c => decide (tmpq c ≥ T))

/-- The value of `minq1` after the loop over the quality string `q` (source lines 213-224). -/
def minq1 (q : List Byte) : Int :=
  q.foldl (fun m c => if m < tmpq c then m else tmpq c) ((QSCORE_SIZE : Int) - 1)

/-- The score `m` is the minimum of the decoded scores of the quality string `q`. -/
def IsMinScore (q : List Byte) (m : Int) : Prop :=
  (∃ c ∈ q, m = tmpq c) ∧ ∀ c ∈ q, m ≤ tmpq c

/-- The tile number `HiqpTileNo` of a non-empty quality string `q` for the threshold `T`. -/
def tileOf (T : Int) (q : List Byte) : Nat := HiQCellSize * hiQCount T q / q.length

/-! ## The scan -/

/-- The `while` loop of `ProbeFASTQ` (source lines 148-246) over the buffers that `fgets` still
has to deliver; `line` is the line counter and `s` the aggregate on entry. -/
def scan : List (List Byte) → Nat → Agg → Outcome
  | [], _, s => .done s
  | [l1], line, s =>
    if firstByte l1 ≠ 64 then .formatError (line + 1) s else .formatError (line + 2) s
  | l1 :: l2 :: rest, line, s =>
    if firstByte l1 ≠ 64 then .formatError (line + 1) s
    else
      let seq := strtokNL (cstr l2)
      match seqUpdate s seq with
      | none => .undefined
      | some s1 =>
        match rest with
        | [] => .formatError (line + 3) s1
        | [l3] =>
          if firstByte l3 ≠ 43 then .formatError (line + 3) s1 else .formatError (line + 4) s1
        | l3 :: l4 :: rest1 =>
          if firstByte l3 ≠ 43 then .formatError (line + 3) s1
          else
            let q := strtokNL (cstr l4)
            if q.length ≠ seq.length then .lengthError (line + 4) s1
            else
              match qualUpdate s1 q with
              | none => .undefined
              | some s2 => scan rest1 (line + 4) s2

/-- The scan of `ProbeFASTQ` on a file that `fgets` delivers as the buffers `input`. -/
def ProbeFASTQ (input : List (List Byte)) : Outcome := scan input 0 Agg.init

/-- The sequence of a sequence-line buffer, as left in `line_buf` by `strtok`. -/
def seqOf (l2 : List Byte) : List Byte := strtokNL (cstr l2)

/-- The quality string of a quality-line buffer, as left in `line_buf` by `strtok`. -/
def qualOf (l4 : List Byte) : List Byte := strtokNL (cstr l4)

/-- The value of `SeqLen1` for the buffer of a sequence line. -/
def SeqLen1 (l2 : List Byte) : Nat := (strtokNL (cstr l2)).length

/-- The value of `QLen1` for the buffer of a quality line. -/
def QLen1 (l4 : List Byte) : Nat := (strtokNL (cstr l4)).length

/-- The buffers of the sequence lines, one for each complete group of four lines. -/
def seqLines : List (List Byte) → List (List Byte)
  | _ :: l2 :: _ :: _ :: rest => l2 :: seqLines rest
  | _ => []

/-- The buffers of the quality lines, one for each complete group of four lines. -/
def qualLines : List (List Byte) → List (List Byte)
  | _ :: _ :: _ :: l4 :: rest => l4 :: qualLines rest
  | _ => []

/-- The aggregate at the end of a scan (the initial one if the scan does not run to the end). -/
def finalAgg (input : List (List Byte)) : Agg :=
  match ProbeFASTQ input with
  | .done s => s
  | _ => Agg.init

/-- The aggregate with which a scan fails (the initial one if it does not fail). -/
def failAgg (input : List (List Byte)) : Agg :=
  match ProbeFASTQ input with
  | .formatError _ s => s
  | .lengthError _ s => s
  | _ => Agg.init

/-! ## The coverage curve of the report -/

/-- The entry `HiQPercentCount[k][i]`. -/
def tileCount (s : Agg) (k i : Nat) : Nat := (s.HiQPercentCount.getD k []).getD i 0

/-- The value of `cumuCnt[k]` after the first `n` rounds of the loop
`for (long i=HiQCellSize, cumuCnt[HiQParamSize]={0}; i >= 0; i--)` (source lines 690-707):
round `n + 1` is the one of tile `HiQCellSize - n` and adds that tile's count. -/
def cumuCntAfter (s : Agg) (k : Nat) : Nat → Nat
  | 0 => 0
  | n + 1 => cumuCntAfter s k n + tileCount s k (HiQCellSize - n)

/-- The value of `cumuCnt[k]` in the round of tile `i`. -/
def cumuCnt (s : Agg) (k i : Nat) : Nat := cumuCntAfter s k (HiQCellSize + 1 - i)

/-- The value `cumuRatio[k] = (double)cumuCnt[k] / (double)ReadCount` in the round of tile `i`,
as an exact fraction (for `ReadCount == 0` the source has a NaN, the fraction here is `0`). -/
def cumuRatio (s : Agg) (k i : Nat) : ℚ := (cumuCnt s k i : ℚ) / (s.ReadCount : ℚ)

/-! ## The `double` arithmetic of the report -/

/-- Rounding to the nearest integer, a tie going to the even one. -/
def roundEven (q : ℚ) : ℤ :=
  if q - ⌊q⌋ < 1 / 2 then ⌊q⌋
  else if 1 / 2 < q - ⌊q⌋ then ⌊q⌋ + 1
  else if ⌊q⌋ % 2 = 0 then ⌊q⌋ else ⌊q⌋ + 1

/-- The rounding of a non-negative `x` to 53 significant bits: with `2^e ≤ x < 2^(e+1)` the
result is the multiple of `2^(e-52)` nearest to `x`, a tie going to the even multiple. -/
def flPos (x : ℚ) : ℚ :=
  (roundEven (x * 2 ^ (52 - Int.log 2 x)) : ℚ) * 2 ^ (Int.log 2 x - 52)

/-- The `double` that an arithmetic operation with the exact result `x` delivers: the IEEE 754
binary64 value nearest to `x`, ties to even. The exponent range is not modelled: the values
that the report computes from counts below `2^64` are zero or lie between `2^-1022` and
`2^1023` in absolute value, where a `double` neither overflows nor loses precision. -/
def fl (x : ℚ) : ℚ := if 0 ≤ x then flPos x else -flPos (-x)

/-- The conversion `(double)n` of a counter. -/
def toDouble (n : Nat) : ℚ := fl (n : ℚ)

/-- The number of tenths that `printf("%.1f", v)` prints: the exact value of the `double`
rounded to one decimal, a tie going to the even digit. -/
def printf1 (v : ℚ) : ℤ := roundEven (10 * v)

/-! ## The named coverage values of the report -/

/-- The value `cov = (double)i*100.0 / (double)HiQCellSize`; the product is exact and the
quotient, a multiple of one half, is exact as well. -/
def cov (i : Nat) : ℚ := (i : ℚ) * 100 / (HiQCellSize : ℚ)

/-- The statement `B[i] += v`. -/
def addAt : List Nat → Nat → Nat → List Nat
  | [], _, _ => []
  | x :: xs, 0, v => (x + v) :: xs
  | x :: xs, i + 1, v => x :: addAt xs i v

/-- The body of the inner loop (source lines 496-518) with the `double` values that the
assignments to `HQcov` store; the state is `(cumuCnt, HQcov)`. -/
def HQstepD (s : Agg) (i k : Nat) (st : List Nat × List ℚ) : List Nat × List ℚ :=
  let cumu := addAt st.1 k (tileCount s k i)
  let r : ℚ := fl (toDouble (cumu.getD k 0) / toDouble s.ReadCount)
  let H1 := if cov i = 100 then (if k = 1 then st.2.set 0 r else st.2) else st.2
  let H2 :=
    if cov i = 95 then (if k = 1 then H1.set 1 r else H1)
    else if cov i = 90 then
      (if k = 1 then H1.set 2 r
       else if k = 0 then (H1.set 3 r).set 4 (fl (1 - (H1.set 3 r).getD 3 0))
       else H1)
    else H1
  (cumu, H2)

/-- One round of the outer loop with the `double` values. -/
def HQroundD (s : Agg) (i : Nat) (st : List Nat × List ℚ) : List Nat × List ℚ :=
  (List.range HiQParamSize).foldl (fun st k => HQstepD s i k st) st

/-- The loop of source lines 490-520 with the `double` values, from the tile `i` down to the
tile 0. -/
def HQloopD (s : Agg) : Nat → List Nat × List ℚ → List Nat × List ℚ
  | 0, st => HQroundD s 0 st
  | i + 1, st => HQloopD s i (HQroundD s (i + 1) st)

/-- The `double` values in the array `HQcov` after the loop (source lines 489-520); for
`ReadCount == 0` the source divides zero by zero, the values here are `0`. -/
def HQcovD (s : Agg) : List ℚ := (HQloopD s HiQCellSize ([0, 0], [0, 0, 0, 0, 0])).2

/-- The array `HQcovD` when the rounds of the tiles `j..200` are done. -/
def HQcovDAt (s : Agg) (j : Nat) : List ℚ :=
  [if j ≤ 200 then fl (toDouble (cumuCnt s 1 200) / toDouble s.ReadCount) else 0,
   if j ≤ 190 then fl (toDouble (cumuCnt s 1 190) / toDouble s.ReadCount) else 0,
   if j ≤ 180 then fl (toDouble (cumuCnt s 1 180) / toDouble s.ReadCount) else 0,
   if j ≤ 180 then fl (toDouble (cumuCnt s 0 180) / toDouble s.ReadCount) else 0,
   if j ≤ 180 then fl (1 - fl (toDouble (cumuCnt s 0 180) / toDouble s.ReadCount)) else 0]

/-- The three `double` values of the pie chart (source lines 563-565): poor `HQcov[4]`, medium
`1.0-HQcov[4]-HQcov[0]` and high `HQcov[0]`. -/
def pieChart (s : Agg) : List ℚ :=
  [(HQcovD s).getD 4 0, fl (fl (1 - (HQcovD s).getD 4 0) - (HQcovD s).getD 0 0),
    (HQcovD s).getD 0 0]

/-- The `double` value `100.0*HQcov[0]` reported as the percentage of high-quality reads
(source line 522). -/
def HQpercent (s : Agg) : ℚ := fl (100 * (HQcovD s).getD 0 0)

/-! ## The minimum-quality rollups of the report -/

/-- The body of the loop over the scores (source lines 462-473) for the score `i`. -/
def MQstep (M : List Nat) (B : List Nat) (i : Nat) : List Nat :=
  if i ≥ 10 then
    let B0 := addAt B 0 (M.getD i 0)
    if i ≥ 15 then
      let B1 := addAt B0 1 (M.getD i 0)
      if i ≥ 20 then addAt B1 2 (M.getD i 0) else B1
    else B0
  else B

/-- The array `MQsum` after the loop `for (i=0; i<QSCORE_SIZE; i++)` (source lines 459-474). -/
def MQsum (s : Agg) : List Nat :=
  (List.range QSCORE_SIZE).foldl (MQstep s.MinQCount) [0, 0, 0]

/-- The `double` value `100.0*(double)MQsum[b]/(double)ReadCount` reported as a percentage of
the reads (source lines 476-478): the product is rounded, then the quotient (for
`ReadCount == 0` the source divides by zero, the value here is `0`). -/
def MQpercent (s : Agg) (b : Nat) : ℚ :=
  fl (fl (100 * toDouble ((MQsum s).getD b 0)) / toDouble s.ReadCount)

/-! ## The quality bands of the report -/

/-- The sum of the counts `Q[i]` over the scores `lo ≤ i < hi`. -/
def bandSum (Q : List Nat) (lo hi : Nat) : Nat := ∑ i in Finset.Ico lo hi, Q.getD i 0

/-! ## Lines of text -/

/-- The line without its trailing newline. -/
def stripNewline (l : List Byte) : List Byte :=
  if l.getLast? = some 10 then l.dropLast else l

/-- A buffer that holds a line of text with at least one character before the newline: no NUL
byte, and no newline but the last byte. -/
abbrev IsTextLine (l : List Byte) : Prop :=
  stripNewline l ≠ [] ∧ ∀ c ∈ stripNewline l, c ≠ 0 ∧ c ≠ 10

/-! ## The reference validator -/

/-- The reference validator, written from the words of the specification: reading the lines in
groups of four, with `n` lines read so far, it gives the first 1-based line number `L` such
that line `L` is the first line of a record and does not start with `@`, or is the second,
third or fourth line of a record and is missing, or is the third line of a record and does not
start with `+`, or is the fourth line of a record and its stripped length differs from the
stripped length of the second line; it gives `none` when there is no such line. -/
def refValidator : List (List Byte) → Nat → Option Nat
  | [], _ => none
  | [l1], n => if l1.head? = some 64 then some (n + 2) else some (n + 1)
  | [l1, _], n => if l1.head? = some 64 then some (n + 3) else some (n + 1)
  | [l1, _, l3], n =>
    if l1.head? = some 64 then (if l3.head? = some 43 then some (n + 4) else some (n + 3))
    else some (n + 1)
  | l1 :: l2 :: l3 :: l4 :: rest, n =>
    if l1.head? = some 64 then
      if l3.head? = some 43 then
        if (stripNewline l4).length = (stripNewline l2).length then refValidator rest (n + 4)
        else some (n + 4)
      else some (n + 3)
    else some (n + 1)

/-- The line number that a scan reports: `some none` for a scan that runs to the end,
`some (some L)` for a format error at line `L`, and `none` when the behaviour is undefined. -/
def errorLine : Outcome → Option (Option Nat)
  | .done _ => some none
  | .formatError L _ => some (some L)
  | .lengthError L _ => some (some L)
  | .undefined => none

/-- A sequence line for which the update of the aggregate is defined: a line of text of 7-bit
characters with at least one of `G`, `C`, `A`, `T`. -/
abbrev CleanSeq (l2 : List Byte) : Prop :=
  IsTextLine l2 ∧ (∀ c ∈ stripNewline l2, c.val < 128) ∧
    gcCount (stripNewline l2) + atCount (stripNewline l2) ≠ 0

/-- A quality line for which the update of the aggregate is defined: a line of text whose
characters decode to scores in `0..41`. -/
abbrev CleanQual (l4 : List Byte) : Prop :=
  IsTextLine l4 ∧ ∀ c ∈ stripNewline l4, 0 ≤ tmpq c ∧ tmpq c < 42

/-- Every sequence line and every quality line of the input is clean. -/
def CleanInput : List (List Byte) → Prop
  | _ :: l2 :: _ :: l4 :: rest => CleanSeq l2 ∧ CleanQual l4 ∧ CleanInput rest
  | [_, l2, _] => CleanSeq l2
  | [_, l2] => CleanSeq l2
  | _ => True

/-! ## Scenarios -/

/-- The end-to-end scenario: the records (`GGCC`, `IIII`) and (`ATAT`, `!!!!`). -/
def twoReads : List (List Byte) :=
  [bytes "@r1\n", bytes "GGCC\n", bytes "+\n", bytes "IIII\n",
   bytes "@r2\n", bytes "ATAT\n", bytes "+\n", bytes "!!!!\n"]

/-- The format-violation scenario: the third line is `ACTG` instead of a `+` line. -/
def badSeparator : List (List Byte) :=
  [bytes "@r1\n", bytes "GGCC\n", bytes "ACTG\n", bytes "IIII\n"]

/-- The length-mismatch scenario: sequence `ACGT` with quality string `II!`. -/
def badLength : List (List Byte) :=
  [bytes "@r1\n", bytes "ACGT\n", bytes "+\n", bytes "II!\n"]

/-- A record whose quality line is empty. -/
def emptyQuality : List (List Byte) :=
  [bytes "@r1\n", bytes "A\n", bytes "+\n", bytes "\n"]

/-- A record whose sequence line holds a NUL byte: `A`, NUL, `C`, newline. -/
def nulSequence : List (List Byte) :=
  [bytes "@r1\n", [65, 0, 67, 10], bytes "+\n", bytes "I\n"]

/-- A record whose read is all `N`. -/
def allN : List (List Byte) :=
  [bytes "@r1\n", bytes "NNNN\n", bytes "+\n", bytes "IIII\n"]

/-- A record whose sequence line and quality line are empty. -/
def emptyRecord : List (List Byte) :=
  [bytes "@r1\n", bytes "\n", bytes "+\n", bytes "\n"]

/-- A record of length zero: the sequence line and the quality line start with a NUL byte. -/
def zeroLength : List (List Byte) :=
  [bytes "@r1\n", [0, 10], bytes "+\n", [0, 10]]

/-- Eighty reads of one base: 23 of score 40 and 57 of score 0. -/
def eightyReads : List (List Byte) :=
  (List.replicate 23 [bytes "@r\n", bytes "A\n", bytes "+\n", bytes "I\n"]).flatten ++
    (List.replicate 57 [bytes "@r\n", bytes "A\n", bytes "+\n", bytes "!\n"]).flatten

/-- Three reads of one base: one of score 40 and two of score 0. -/
def threeReads : List (List Byte) :=
  [bytes "@r\n", bytes "A\n", bytes "+\n", bytes "I\n",
   bytes "@r\n", bytes "A\n", bytes "+\n", bytes "!\n",
   bytes "@r\n", bytes "A\n", bytes "+\n", bytes "!\n"]

/-- Three reads of one base: one of score 40 and two of score 15. -/
def threeReadsQ15 : List (List Byte) :=
  [bytes "@r\n", bytes "A\n", bytes "+\n", bytes "I\n",
   bytes "@r\n", bytes "A\n", bytes "+\n", bytes "0\n",
   bytes "@r\n", bytes "A\n", bytes "+\n", bytes "0\n"]

/-! ## Arrays -/

theorem bump_length (xs : List Nat) (i : Nat) : (bump xs i).length = xs.length := by
  induction xs generalizing i with
  | nil => simp [bump]
  | cons x xs ih => cases i <;> simp [bump, ih]

theorem bump_sum (xs : List Nat) (i : Nat) (h : i < xs.length) :
    (bump xs i).sum = xs.sum + 1 := by
  induction xs generalizing i with
  | nil => simp at h
  | cons x xs ih =>
    cases i with
    | zero => simp [bump]; omega
    | succ i =>
      have := ih i (by simpa using h)
      simp [bump, this]; omega

theorem bump_getD (xs : List Nat) (i k : Nat) (h : i < xs.length) :
    (bump xs i).getD k 0 = xs.getD k 0 + (if k = i then 1 else 0) := by
  induction xs generalizing i k with
  | nil => simp at h
  | cons x xs ih =>
    cases i with
    | zero => cases k <;> simp [bump]
    | succ i =>
      cases k with
      | zero => simp [bump]
      | succ k => simpa [bump] using ih i k (by simpa using h)

theorem incr_eq_some {a a1 : List Nat} {i : Int} (h : incr a i = some a1) :
    0 ≤ i ∧ i.toNat < a.length ∧ a1 = bump a i.toNat := by
  unfold incr at h
  split at h
  · rename_i hi
    simp at h
    refine ⟨hi.1, ?_, h.symm⟩
    omega
  · simp at h

theorem incr_of_lt (a : List Nat) (n : Nat) (h : n < a.length) :
    incr a (n : Int) = some (bump a n) := by
  unfold incr
  rw [if_pos ⟨by omega, by omega⟩]
  simp

theorem incr2_eq_some {m m1 : List (List Nat)} {j : Nat} {i : Int} (h : incr2 m j i = some m1) :
    0 ≤ i ∧ i.toNat < (m.getD j []).length ∧ m1.length = m.length ∧
      ∀ k, m1.getD k [] = if k = j then bump (m.getD j []) i.toNat else m.getD k [] := by
  induction m generalizing m1 j with
  | nil => simp [incr2] at h
  | cons r rs ih =>
    cases j with
    | zero =>
      simp only [incr2, Option.map_eq_some'] at h
      obtain ⟨r1, hr, rfl⟩ := h
      obtain ⟨h0, hlt, rfl⟩ := incr_eq_some hr
      refine ⟨h0, by simpa using hlt, by simp, ?_⟩
      intro k
      cases k <;> simp
    | succ j =>
      simp only [incr2, Option.map_eq_some'] at h
      obtain ⟨rs1, hr, rfl⟩ := h
      obtain ⟨h0, hlt, hlen, hk⟩ := ih hr
      refine ⟨h0, by simpa using hlt, by simp [hlen], ?_⟩
      intro k
      cases k with
      | zero => simp
      | succ k => simpa using hk k

/-! ## The sequence line -/

theorem charVal_nonneg {c : Byte} (h : 0 ≤ charVal c) : c.val < 128 ∧ (charVal c).toNat = c.val := by
  have := c.isLt
  unfold charVal at h ⊢
  split at h
  · rename_i hc; rw [if_pos hc]; exact ⟨hc, by simp⟩
  · omega

theorem seqLoop_eq_some {cs : List Byte} {ac ac1 : List Nat} {g a g1 a1 : Nat}
    (h : seqLoop cs (ac, g, a) = some (ac1, g1, a1)) :
    ac1.length = ac.length ∧ ac1.sum = ac.sum + cs.length ∧
      (∀ k : Byte, ac1.getD k.val 0 = ac.getD k.val 0 + cs.count k) ∧
      g1 = g + gcCount cs ∧ a1 = a + atCount cs ∧ ∀ c ∈ cs, c.val < 128 := by
  induction cs generalizing ac g a with
  | nil =>
    simp [seqLoop] at h
    obtain ⟨rfl, rfl, rfl⟩ := h
    simp [gcCount, atCount]
  | cons c cs ih =>
    simp only [seqLoop] at h
    split at h
    · simp at h
    · rename_i ac2 hinc
      obtain ⟨h0, hlt, rfl⟩ := incr_eq_some hinc
      obtain ⟨hc, hcv⟩ := charVal_nonneg h0
      rw [hcv] at hlt
      have key : ∀ g2 a2, seqLoop cs (bump ac (charVal c).toNat, g2, a2) = some (ac1, g1, a1) →
          a2 = a + (if (c == 65 || c == 84) then 1 else 0) →
          g2 = g + (if (c == 71 || c == 67) then 1 else 0) →
          ac1.length = ac.length ∧ ac1.sum = ac.sum + (c :: cs).length ∧
          (∀ k : Byte, ac1.getD k.val 0 = ac.getD k.val 0 + (c :: cs).count k) ∧
          g1 = g + gcCount (c :: cs) ∧ a1 = a + atCount (c :: cs) ∧
          ∀ x ∈ c :: cs, x.val < 128 := by
        intro g2 a2 hrec ha hg
        obtain ⟨hl, hs, hk, hg1, ha1, hall⟩ := ih hrec
        rw [hcv] at hl hs hk
        refine ⟨by rw [hl, bump_length], ?_, ?_, ?_, ?_, ?_⟩
        · rw [hs, bump_sum _ _ hlt]; simp; omega
        · intro k
          rw [hk k, bump_getD _ _ _ hlt, List.count_cons]
          by_cases hkc : k = c
          · subst hkc; simp; omega
          · have h1 : ¬ (c = k) := fun e => hkc e.symm
            have h2 : ¬ (k.val = c.val) := fun e => hkc (Fin.ext e)
            simp [h1, h2]
        · rw [hg1, hg]; simp only [gcCount, List.countP_cons]; omega
        · rw [ha1, ha]; simp only [atCount, List.countP_cons]; omega
        · intro x hx
          rcases List.mem_cons.1 hx with rfl | hx
          · exact hc
          · exact hall x hx
      split at h
      · rename_i hgc
        refine key _ _ h ?_ ?_
        · rcases hgc with rfl | rfl <;> simp +decide
        · rcases hgc with rfl | rfl <;> simp +decide
      · rename_i hgc
        have h1 : (c == 71 || c == 67) = false := by
          simp only [not_or] at hgc; simp [hgc.1, hgc.2]
        split at h
        · rename_i hat
          refine key _ _ h ?_ ?_
          · rcases hat with rfl | rfl <;> simp +decide
          · simp [h1]
        · rename_i hat
          have h2 : (c == 65 || c == 84) = false := by
            simp only [not_or] at hat; simp [hat.1, hat.2]
          refine key _ _ h ?_ ?_
          · simp [h2]
          · simp [h1]

theorem toChar_of_small (n : Nat) (h : n < 128) : toChar (n : Int) = n := by
  unfold toChar; omega

theorem GCvalue_eq_some {g a : Nat} {v : Int} (h : GCvalue g a = some v) :
    g + a ≠ 0 ∧ v = ((200 * g + (g + a)) / (2 * (g + a)) : Nat) ∧
      (200 * g + (g + a)) / (2 * (g + a)) ≤ 100 := by
  unfold GCvalue at h
  split at h
  · simp at h
  · rename_i hne
    have hb : (200 * g + (g + a)) / (2 * (g + a)) ≤ 100 := by
      have hpos : 0 < 2 * (g + a) := by omega
      rw [Nat.div_le_iff_le_mul_add_pred hpos]
      have : 2 * (g + a) * 100 = 200 * g + 200 * a := by ring
      omega
    simp only [Option.some.injEq] at h
    rw [toChar_of_small _ (by omega)] at h
    exact ⟨hne, h.symm, hb⟩

theorem GCvalue_of_pos (g a : Nat) (h : g + a ≠ 0) :
    GCvalue g a = some (((200 * g + (g + a)) / (2 * (g + a)) : Nat) : Int) := by
  have hb : (200 * g + (g + a)) / (2 * (g + a)) ≤ 100 := by
    have hpos : 0 < 2 * (g + a) := by omega
    rw [Nat.div_le_iff_le_mul_add_pred hpos]
    have : 2 * (g + a) * 100 = 200 * g + 200 * a := by ring
    omega
  unfold GCvalue
  rw [if_neg h, toChar_of_small _ (by omega)]

/-- What a defined update by a sequence line does to the aggregate. -/
theorem seqUpdate_eq_some {s s1 : Agg} {seq : List Byte} (h : seqUpdate s seq = some s1) :
    gcCount seq + atCount seq ≠ 0 ∧ (∀ c ∈ seq, c.val < 128) ∧
      s1.TotalLen = s.TotalLen + seq.length ∧ s1.ReadCount = s.ReadCount + 1 ∧
      s1.MinSeqLen = (if s.MinSeqLen < seq.length then s.MinSeqLen else seq.length) ∧
      s1.MaxSeqLen = (if s.MaxSeqLen > seq.length then s.MaxSeqLen else seq.length) ∧
      s1.AlphabetCount.length = s.AlphabetCount.length ∧
      s1.AlphabetCount.sum = s.AlphabetCount.sum + seq.length ∧
      (∀ k : Byte, s1.AlphabetCount.getD k.val 0 = s.AlphabetCount.getD k.val 0 + seq.count k) ∧
      (200 * gcCount seq + (gcCount seq + atCount seq)) / (2 * (gcCount seq + atCount seq))
        < s.CntGCRead.length ∧
      s1.CntGCRead = bump s.CntGCRead
        ((200 * gcCount seq + (gcCount seq + atCount seq)) / (2 * (gcCount seq + atCount seq))) ∧
      s1.QCount = s.QCount ∧ s1.MinQCount = s.MinQCount ∧
      s1.HiQPercentCount = s.HiQPercentCount := by
  unfold seqUpdate at h
  simp only at h
  split at h
  · simp at h
  · rename_i ac g a hloop
    obtain ⟨hl, hs, hk, hg, ha, hall⟩ := seqLoop_eq_some hloop
    simp only [Nat.zero_add] at hg ha
    subst hg ha
    split at h
    · simp at h
    · rename_i v hv
      obtain ⟨hne, rfl, hb⟩ := GCvalue_eq_some hv
      split at h
      · simp at h
      · rename_i gcr hinc
        obtain ⟨_, hlt, rfl⟩ := incr_eq_some hinc
        simp only [Int.toNat_ofNat] at hlt
        simp only [Option.some.injEq] at h
        subst h
        exact ⟨hne, hall, rfl, rfl, rfl, rfl, hl, hs, hk, hlt, rfl, rfl, rfl, rfl⟩

/-- A sequence line of 7-bit characters with at least one of `G`, `C`, `A`, `T` updates the
aggregate without undefined behaviour. -/
theorem seqUpdate_defined (s : Agg) (seq : List Byte) (hA : s.AlphabetCount.length = 256)
    (hG : s.CntGCRead.length = 101) (h7 : ∀ c ∈ seq, c.val < 128)
    (hne : gcCount seq + atCount seq ≠ 0) : ∃ s1, seqUpdate s seq = some s1 := by
  have hloop : ∀ (cs : List Byte) (ac : List Nat) (g a : Nat), ac.length = 256 →
      (∀ c ∈ cs, c.val < 128) → ∃ r, seqLoop cs (ac, g, a) = some r := by
    intro cs
    induction cs with
    | nil => intro ac g a _ _; exact ⟨_, rfl⟩
    | cons c cs ih =>
      intro ac g a hac hc
      have hc0 : c.val < 128 := hc c (List.mem_cons_self _ _)
      have hcv : charVal c = (c.val : Int) := by unfold charVal; rw [if_pos hc0]
      have hinc : incr ac (charVal c) = some (bump ac c.val) := by
        rw [hcv]; exact incr_of_lt _ _ (by omega)
      have hrest : ∀ x ∈ cs, x.val < 128 := fun x hx => hc x (List.mem_cons_of_mem _ hx)
      simp only [seqLoop, hinc]
      have hb : (bump ac c.val).length = 256 := by rw [bump_length]; exact hac
      split
      · exact ih _ _ _ hb hrest
      · split
        · exact ih _ _ _ hb hrest
        · exact ih _ _ _ hb hrest
  obtain ⟨⟨ac, g, a⟩, hr⟩ := hloop seq s.AlphabetCount 0 0 hA h7
  obtain ⟨_, _, _, hg, ha, _⟩ := seqLoop_eq_some hr
  simp only [Nat.zero_add] at hg ha
  subst hg ha
  have hv := GCvalue_of_pos _ _ hne
  have hb := (GCvalue_eq_some hv).2.2
  have hinc := incr_of_lt s.CntGCRead
    ((200 * gcCount seq + (gcCount seq + atCount seq)) / (2 * (gcCount seq + atCount seq)))
    (by omega)
  unfold seqUpdate
  simp only [hr, hv, hinc]
  exact ⟨_, rfl⟩

/-! ## The quality line -/

theorem hiqStep_pair (t : Int) (h0 h1 : Nat) :
    hiqStep t HiQTh [h0, h1] =
      [h0 + (if t ≥ 15 then 1 else 0), h1 + (if t ≥ 20 then 1 else 0)] := by
  simp only [HiQTh, hiqStep]
  split <;> split <;> simp

theorem qualLoop_eq_some {q : List Byte} {qc qc1 : List Nat} {m m1 : Int} {h0 h1 : Nat}
    {hi1 : List Nat} (h : qualLoop q (qc, m, [h0, h1]) = some (qc1, m1, hi1)) :
    qc1.length = qc.length ∧ qc1.sum = qc.sum + q.length ∧
      (∀ c ∈ q, 0 ≤ tmpq c ∧ (tmpq c).toNat < qc.length) ∧
      (∀ t : Nat, qc1.getD t 0 = qc.getD t 0 + q.countP (fun c => decide (tmpq c = (t : Int)))) ∧
      m1 ≤ m ∧ (∀ c ∈ q, m1 ≤ tmpq c) ∧ (m1 = m ∨ ∃ c ∈ q, m1 = tmpq c) ∧
      hi1 = [h0 + hiQCount 15 q, h1 + hiQCount 20 q] := by
  induction q generalizing qc m h0 h1 with
  | nil =>
    simp [qualLoop] at h
    obtain ⟨rfl, rfl, rfl⟩ := h
    simp [hiQCount]
  | cons c cs ih =>
    simp only [qualLoop] at h
    split at h
    · simp at h
    · rename_i qc2 hinc
      obtain ⟨hc0, hlt, rfl⟩ := incr_eq_some hinc
      rw [hiqStep_pair] at h
      obtain ⟨hl, hs, hall, hk, hm, hmin, hmem, hhi⟩ := ih h
      rw [bump_length] at hl hall
      refine ⟨hl, ?_, ?_, ?_, ?_, ?_, ?_, ?_⟩
      · rw [hs, bump_sum _ _ hlt]; simp; omega
      · intro x hx
        rcases List.mem_cons.1 hx with rfl | hx
        · exact ⟨hc0, hlt⟩
        · exact hall x hx
      · intro t
        rw [hk t, bump_getD _ _ _ hlt, List.countP_cons]
        by_cases ht : tmpq c = (t : Int)
        · have e1 : t = (tmpq c).toNat := by rw [ht]; simp
          have e2 : decide (tmpq c = (t : Int)) = true := by simpa using ht
          rw [if_pos e1, e2]
          simp only [if_true]
          omega
        · have e1 : ¬ (t = (tmpq c).toNat) := by
            intro e
            apply ht
            rw [e]
            exact (Int.toNat_of_nonneg hc0).symm
          have e2 : decide (tmpq c = (t : Int)) = false := by simpa using ht
          rw [if_neg e1, e2]
          simp
      · split at hm <;> omega
      · intro x hx
        rcases List.mem_cons.1 hx with rfl | hx
        · split at hm <;> omega
        · exact hmin x hx
      · rcases hmem with hmem | ⟨x, hx, rfl⟩
        · split at hmem
          · exact Or.inl hmem
          · exact Or.inr ⟨c, List.mem_cons_self _ _, hmem⟩
        · exact Or.inr ⟨x, List.mem_cons_of_mem _ hx, rfl⟩
      · rw [hhi]
        simp only [hiQCount, List.countP_cons]
        congr 1
        · split
          · simp [*]; omega
          · simp [*]
        · congr 1
          split
          · simp [*]; omega
          · simp [*]

theorem HiqpTileNo_eq_some {h n : Nat} {t : Int} (ht : HiqpTileNo h n = some t) :
    n ≠ 0 ∧ t = ((HiQCellSize * h / n : Nat) : Int) := by
  unfold HiqpTileNo at ht
  split at ht
  · simp at ht
  · rename_i hn
    simp only [Option.some.injEq] at ht
    exact ⟨hn, ht.symm⟩

theorem tileLoop_eq_some {n : Nat} {hs : List Nat} {j : Nat} {m m1 : List (List Nat)}
    (h : tileLoop n hs j m = some m1) :
    (hs ≠ [] → n ≠ 0) ∧ m1.length = m.length ∧
      (∀ k, j ≤ k → k < j + hs.length →
        HiQCellSize * hs.getD (k - j) 0 / n < (m.getD k []).length ∧
        m1.getD k [] = bump (m.getD k []) (HiQCellSize * hs.getD (k - j) 0 / n)) ∧
      (∀ k, ¬ (j ≤ k ∧ k < j + hs.length) → m1.getD k [] = m.getD k []) := by
  induction hs generalizing j m with
  | nil =>
    simp [tileLoop] at h
    subst h
    refine ⟨by simp, rfl, ?_, ?_⟩
    · intro k h1 h2; simp at h2; omega
    · intro k _; rfl
  | cons x xs ih =>
    simp only [tileLoop] at h
    split at h
    · simp at h
    · rename_i t ht
      obtain ⟨hn, rfl⟩ := HiqpTileNo_eq_some ht
      split at h
      · simp at h
      · rename_i m2 hinc
        obtain ⟨_, hlt, hlen, hrow⟩ := incr2_eq_some hinc
        simp only [Int.toNat_ofNat] at hlt hrow
        obtain ⟨_, hl, hin, hout⟩ := ih h
        refine ⟨fun _ => hn, by rw [hl, hlen], ?_, ?_⟩
        · intro k h1 h2
          simp only [List.length_cons] at h2
          by_cases hk : k = j
          · subst hk
            have := hout k (by omega)
            rw [this, hrow k]
            refine ⟨by simpa using hlt, by simp⟩
          · have h3 := hin k (by omega) (by omega)
            rw [hrow k, if_neg hk] at h3
            have : k - j = (k - (j + 1)) + 1 := by omega
            rw [this]
            simpa using h3
        · intro k hk
          simp only [List.length_cons] at hk
          rw [hout k (by omega), hrow k, if_neg (by omega)]

theorem qualLoop_minq {q : List Byte} {qc qc1 : List Nat} {m m1 : Int} {hi hi1 : List Nat}
    (h : qualLoop q (qc, m, hi) = some (qc1, m1, hi1)) :
    m1 = q.foldl (fun m c => if m < tmpq c then m else tmpq c) m := by
  induction q generalizing qc m hi with
  | nil =>
    simp [qualLoop] at h
    simp [h.2.1]
  | cons c cs ih =>
    simp only [qualLoop] at h
    split at h
    · simp at h
    · simpa using ih h

/-- What a defined update by a quality line does to the aggregate. -/
theorem qualUpdate_eq_some {s s2 : Agg} {q : List Byte} (hQ : s.QCount.length = QSCORE_SIZE)
    (h : qualUpdate s q = some s2) :
    q ≠ [] ∧ (∀ c ∈ q, 0 ≤ tmpq c ∧ tmpq c < 42) ∧
      s2.QCount.length = s.QCount.length ∧ s2.QCount.sum = s.QCount.sum + q.length ∧
      (∀ t : Nat, s2.QCount.getD t 0
        = s.QCount.getD t 0 + q.countP (fun c => decide (tmpq c = (t : Int)))) ∧
      (IsMinScore q (minq1 q) ∧ 0 ≤ minq1 q ∧ (minq1 q).toNat < s.MinQCount.length ∧
        s2.MinQCount = bump s.MinQCount (minq1 q).toNat) ∧
      s2.HiQPercentCount.length = s.HiQPercentCount.length ∧
      (tileOf 15 q < (s.HiQPercentCount.getD 0 []).length ∧
        s2.HiQPercentCount.getD 0 [] = bump (s.HiQPercentCount.getD 0 []) (tileOf 15 q)) ∧
      (tileOf 20 q < (s.HiQPercentCount.getD 1 []).length ∧
        s2.HiQPercentCount.getD 1 [] = bump (s.HiQPercentCount.getD 1 []) (tileOf 20 q)) ∧
      (∀ k, 2 ≤ k → s2.HiQPercentCount.getD k [] = s.HiQPercentCount.getD k []) ∧
      s2.AlphabetCount = s.AlphabetCount ∧ s2.TotalLen = s.TotalLen ∧
      s2.ReadCount = s.ReadCount ∧ s2.MinSeqLen = s.MinSeqLen ∧ s2.MaxSeqLen = s.MaxSeqLen ∧
      s2.CntGCRead = s.CntGCRead := by
  unfold qualUpdate at h
  simp only at h
  split at h
  · simp at h
  · rename_i qc minq1 hi hloop
    have hrep : List.replicate HiQParamSize 0 = [0, 0] := rfl
    rw [hrep] at hloop
    have hfold : minq1 = SQUAT.minq1 q := qualLoop_minq hloop
    subst hfold
    obtain ⟨hl, hs, hall, hk, hm, hmin, hmem, rfl⟩ := qualLoop_eq_some hloop
    simp only [Nat.zero_add] at h
    split at h
    · simp at h
    · rename_i mq hinc
      obtain ⟨hm0, hmlt, rfl⟩ := incr_eq_some hinc
      split at h
      · simp at h
      · rename_i m htile
        obtain ⟨hn, hlen, hin, hout⟩ := tileLoop_eq_some htile
        have hq : q ≠ [] := by
          intro e
          exact hn (by simp) (by simp [e])
        have hr : ∀ c ∈ q, 0 ≤ tmpq c ∧ tmpq c < 42 := by
          intro c hc
          obtain ⟨h0, h1⟩ := hall c hc
          rw [hQ] at h1
          unfold QSCORE_SIZE at h1
          omega
        have hismin : IsMinScore q (SQUAT.minq1 q) := by
          refine ⟨?_, hmin⟩
          rcases hmem with e | hex
          · obtain ⟨c, hc⟩ := List.exists_mem_of_ne_nil q hq
            refine ⟨c, hc, ?_⟩
            have := hmin c hc
            have := (hr c hc).2
            unfold QSCORE_SIZE at e
            omega
          · exact hex
        simp only [Option.some.injEq] at h
        subst h
        have t0 := hin 0 (by omega) (by simp)
        have t1 := hin 1 (by omega) (by simp)
        simp only [Nat.sub_zero, List.getD_cons_zero, List.getD_cons_succ] at t0 t1
        refine ⟨hq, hr, hl, hs, hk, ⟨hismin, hm0, hmlt, rfl⟩, hlen, t0, t1, ?_,
          rfl, rfl, rfl, rfl, rfl, rfl⟩
        intro k hk2
        exact hout k (by simp; omega)

/-- A non-empty quality line whose scores all lie in `0..41` updates the aggregate without
undefined behaviour. -/
theorem qualUpdate_defined (s : Agg) (q : List Byte) (hw : s.WF) (hq : q ≠ [])
    (hr : ∀ c ∈ q, 0 ≤ tmpq c ∧ tmpq c < 42) : ∃ s2, qualUpdate s q = some s2 := by
  obtain ⟨_, hQ, hM, _, hH, hrow⟩ := hw
  have hloop : ∀ (cs : List Byte) (qc : List Nat) (m : Int) (hi : List Nat),
      qc.length = 42 → (∀ c ∈ cs, 0 ≤ tmpq c ∧ tmpq c < 42) →
      ∃ r, qualLoop cs (qc, m, hi) = some r := by
    intro cs
    induction cs with
    | nil => intro qc m hi _ _; exact ⟨_, rfl⟩
    | cons c cs ih =>
      intro qc m hi hqc hc
      obtain ⟨h0, h1⟩ := hc c (List.mem_cons_self _ _)
      have hinc : incr qc (tmpq c) = some (bump qc (tmpq c).toNat) := by
        unfold incr
        rw [if_pos ⟨h0, by omega⟩]
      simp only [qualLoop, hinc]
      exact ih _ _ _ (by rw [bump_length]; exact hqc)
        (fun x hx => hc x (List.mem_cons_of_mem _ hx))
  obtain ⟨⟨qc, minq1, hi⟩, hres⟩ := hloop q s.QCount ((QSCORE_SIZE : Int) - 1) [0, 0] hQ hr
  obtain ⟨_, _, _, _, hm, hmin, hmem, rfl⟩ := qualLoop_eq_some hres
  simp only [Nat.zero_add] at hres
  have hm0 : 0 ≤ minq1 ∧ minq1 < 42 := by
    rcases hmem with e | ⟨c, hc, rfl⟩
    · rw [e]; unfold QSCORE_SIZE; omega
    · exact hr c hc
  have hinc : incr s.MinQCount minq1 = some (bump s.MinQCount minq1.toNat) := by
    unfold incr
    rw [if_pos ⟨hm0.1, by rw [hM]; unfold QSCORE_SIZE; omega⟩]
  have hn : q.length ≠ 0 := by simpa using hq
  have hpos : 0 < q.length := Nat.pos_of_ne_zero hn
  have htile : ∀ T, HiQCellSize * hiQCount T q / q.length < HiQCellSize + 1 := by
    intro T
    have hle : hiQCount T q ≤ q.length := List.countP_le_length _
    have : HiQCellSize * hiQCount T q / q.length ≤ HiQCellSize := by
      rw [Nat.div_le_iff_le_mul_add_pred hpos]
      have := Nat.mul_le_mul_left HiQCellSize hle
      rw [Nat.mul_comm q.length HiQCellSize]
      omega
    omega
  have hH2 : ∃ r0 r1, s.HiQPercentCount = [r0, r1] := by
    match hs : s.HiQPercentCount, hH with
    | [r0, r1], _ => exact ⟨r0, r1, rfl⟩
  obtain ⟨r0, r1, hrows⟩ := hH2
  have hr0 : r0.length = HiQCellSize + 1 := by
    have := hrow 0 (by decide); rw [hrows] at this; simpa using this
  have hr1 : r1.length = HiQCellSize + 1 := by
    have := hrow 1 (by decide); rw [hrows] at this; simpa using this
  have hi0 := incr_of_lt r0 _ (by rw [hr0]; exact htile 15)
  have hi1 := incr_of_lt r1 _ (by rw [hr1]; exact htile 20)
  unfold qualUpdate
  have hrep : List.replicate HiQParamSize 0 = [0, 0] := rfl
  simp only [hrep, hres, hinc, hrows, tileLoop, HiqpTileNo, if_neg hn, incr2, hi0, hi1,
    Option.map_some']
  exact ⟨_, rfl⟩

/-! ## The scan -/

theorem scan_done_cons {l1 l2 l3 l4 : List Byte} {rest : List (List Byte)} {line : Nat}
    {s s' : Agg} (h : scan (l1 :: l2 :: l3 :: l4 :: rest) line s = .done s') :
    ∃ s1 s2, firstByte l1 = 64 ∧ seqUpdate s (strtokNL (cstr l2)) = some s1 ∧
      firstByte l3 = 43 ∧ QLen1 l4 = SeqLen1 l2 ∧
      qualUpdate s1 (strtokNL (cstr l4)) = some s2 ∧ scan rest (line + 4) s2 = .done s' := by
  rw [scan] at h
  split at h
  · simp at h
  · rename_i h1
    simp only at h
    split at h
    · simp at h
    · rename_i s1 hs1
      split at h
      · simp at h
      · rename_i h3
        split at h
        · simp at h
        · rename_i hlen
          split at h
          · simp at h
          · rename_i s2 hs2
            exact ⟨s1, s2, by simpa using h1, hs1, by simpa using h3, by simpa using hlen,
              hs2, h⟩

theorem scan_one_ne_done (l1 : List Byte) (line : Nat) (s s' : Agg) :
    scan [l1] line s ≠ .done s' := by
  rw [scan]; split <;> simp

theorem scan_two_ne_done (l1 l2 : List Byte) (line : Nat) (s s' : Agg) :
    scan [l1, l2] line s ≠ .done s' := by
  rw [scan]; split
  · simp
  · simp only; split <;> simp

theorem scan_three_ne_done (l1 l2 l3 : List Byte) (line : Nat) (s s' : Agg) :
    scan [l1, l2, l3] line s ≠ .done s' := by
  rw [scan]; split
  · simp
  · simp only; split
    · simp
    · split <;> simp

theorem init_WF : Agg.init.WF := by
  refine ⟨by simp [Agg.init], by simp [Agg.init], by simp [Agg.init], by simp [Agg.init],
    by simp [Agg.init], ?_⟩
  intro k hk
  simp only [HiQParamSize] at hk
  interval_cases k <;> simp [Agg.init, HiQParamSize]

theorem init_Balanced : Agg.init.Balanced := by
  refine ⟨by simp [Agg.init], by simp [Agg.init], by simp [Agg.init], by simp [Agg.init], ?_⟩
  intro k hk
  simp only [HiQParamSize] at hk
  interval_cases k <;> simp [Agg.init, HiQParamSize]

/-- One record: the update by its sequence line followed by the update by its quality line of
the same length keeps the array sizes and the balance of counts and totals. -/
theorem record_step {s s1 s2 : Agg} {seq q : List Byte} (hw : s.WF) (hb : s.Balanced)
    (h1 : seqUpdate s seq = some s1) (hlen : q.length = seq.length)
    (h2 : qualUpdate s1 q = some s2) :
    s2.WF ∧ s2.Balanced ∧ s2.TotalLen = s.TotalLen + seq.length ∧
      s2.ReadCount = s.ReadCount + 1 := by
  obtain ⟨wA, wQ, wM, wG, wH, wR⟩ := hw
  obtain ⟨bA, bQ, bM, bG, bH⟩ := hb
  obtain ⟨_, _, aT, aR, _, _, aAl, aAs, _, aGlt, aG, aQ, aMq, aH⟩ := seqUpdate_eq_some h1
  obtain ⟨_, _, qQl, qQs, _, ⟨_, _, qMlt, qM⟩, qHl, ⟨q0lt, q0⟩, ⟨q1lt, q1⟩, _, qA, qT, qR,
    _, _, qG⟩ := qualUpdate_eq_some (by rw [aQ]; exact wQ) h2
  have hrow : ∀ k, k < HiQParamSize →
      (s2.HiQPercentCount.getD k []).length = HiQCellSize + 1 ∧
      (s2.HiQPercentCount.getD k []).sum = s.ReadCount + 1 := by
    intro k hk
    simp only [HiQParamSize] at hk
    rw [aH] at q0lt q0 q1lt q1
    interval_cases k
    · rw [q0, bump_length, bump_sum _ _ q0lt]
      exact ⟨wR 0 (by decide), by rw [bH 0 (by decide)]⟩
    · rw [q1, bump_length, bump_sum _ _ q1lt]
      exact ⟨wR 1 (by decide), by rw [bH 1 (by decide)]⟩
  refine ⟨⟨?_, ?_, ?_, ?_, ?_, fun k hk => (hrow k hk).1⟩,
    ⟨?_, ?_, ?_, ?_, fun k hk => ?_⟩, ?_, ?_⟩
  · rw [qA, aAl, wA]
  · rw [qQl, aQ, wQ]
  · rw [qM, bump_length, aMq, wM]
  · rw [qG, aG, bump_length, wG]
  · rw [qHl, aH, wH]
  · rw [qA, aAs, qT, aT, bA]
  · rw [qQs, aQ, qT, aT, bQ, hlen]
  · rw [qM, bump_sum _ _ qMlt, aMq, qR, aR, bM]
  · rw [qG, aG, bump_sum _ _ aGlt, qR, aR, bG]
  · rw [(hrow k hk).2, qR, aR]
  · rw [qT, aT]
  · rw [qR, aR]

/-- A scan that runs to the end keeps the array sizes and the balance of counts and totals, and
adds the length of every sequence line to `TotalLen` and one per record to `ReadCount`. -/
theorem scan_done_inv : ∀ (input : List (List Byte)) (line : Nat) (s s' : Agg),
    scan input line s = .done s' → s.WF → s.Balanced →
    s'.WF ∧ s'.Balanced ∧ s'.TotalLen = s.TotalLen + ((seqLines input).map SeqLen1).sum ∧
      s'.ReadCount = s.ReadCount + (seqLines input).length ∧
      input.length = 4 * (seqLines input).length
  | [], line, s, s', h, hw, hb => by
    simp only [scan, Outcome.done.injEq] at h
    subst h
    exact ⟨hw, hb, by simp [seqLines], by simp [seqLines], by simp [seqLines]⟩
  | [l1], line, s, s', h, _, _ => absurd h (scan_one_ne_done _ _ _ _)
  | [l1, l2], line, s, s', h, _, _ => absurd h (scan_two_ne_done _ _ _ _ _)
  | [l1, l2, l3], line, s, s', h, _, _ => absurd h (scan_three_ne_done _ _ _ _ _ _)
  | l1 :: l2 :: l3 :: l4 :: rest, line, s, s', h, hw, hb => by
    obtain ⟨s1, s2, _, hs1, _, hlen, hs2, hrest⟩ := scan_done_cons h
    obtain ⟨hw2, hb2, hT, hR⟩ := record_step hw hb hs1 hlen hs2
    obtain ⟨hw', hb', hT', hR', hL⟩ := scan_done_inv rest (line + 4) s2 s' hrest hw2 hb2
    refine ⟨hw', hb', ?_, ?_, ?_⟩
    · rw [hT', hT]; simp [seqLines, SeqLen1]; omega
    · rw [hR', hR]; simp [seqLines]; omega
    · simp [seqLines, hL]; omega

/-- A scan that runs to the end has added, to every bucket of `MinQCount` and every tile of
`HiQPercentCount`, the number of records whose quality string falls into it. -/
theorem scan_done_hist : ∀ (input : List (List Byte)) (line : Nat) (s s' : Agg),
    scan input line s = .done s' → s.WF →
    (∀ t : Nat, s'.MinQCount.getD t 0 = s.MinQCount.getD t 0
      + (qualLines input).countP (fun l4 => decide (minq1 (qualOf l4) = (t : Int)))) ∧
    (∀ i : Nat, tileCount s' 0 i = tileCount s 0 i
      + (qualLines input).countP (fun l4 => decide (tileOf 15 (qualOf l4) = i))) ∧
    (∀ i : Nat, tileCount s' 1 i = tileCount s 1 i
      + (qualLines input).countP (fun l4 => decide (tileOf 20 (qualOf l4) = i)))
  | [], line, s, s', h, _ => by
    simp only [scan, Outcome.done.injEq] at h
    subst h
    simp [qualLines]
  | [l1], line, s, s', h, _ => absurd h (scan_one_ne_done _ _ _ _)
  | [l1, l2], line, s, s', h, _ => absurd h (scan_two_ne_done _ _ _ _ _)
  | [l1, l2, l3], line, s, s', h, _ => absurd h (scan_three_ne_done _ _ _ _ _ _)
  | l1 :: l2 :: l3 :: l4 :: rest, line, s, s', h, hw => by
    obtain ⟨s1, s2, _, hs1, _, hlen, hs2, hrest⟩ := scan_done_cons h
    obtain ⟨_, _, _, _, _, _, aAl, _, _, aGlt, aG, aQ, aMq, aH⟩ := seqUpdate_eq_some hs1
    have hw1 : s1.WF := by
      obtain ⟨wA, wQ, wM, wG, wH, wR⟩ := hw
      exact ⟨by rw [aAl, wA], by rw [aQ, wQ], by rw [aMq, wM], by rw [aG, bump_length, wG],
        by rw [aH, wH], by rw [aH]; exact wR⟩
    obtain ⟨_, _, _, _, _, ⟨_, hm0, qMlt, qM⟩, _, ⟨q0lt, q0⟩, ⟨q1lt, q1⟩, _⟩ :=
      qualUpdate_eq_some hw1.2.1 hs2
    have hw2 : s2.WF := by
      have hQs : s.QCount.sum = s.QCount.sum := rfl
      obtain ⟨_, _, qQl, _, _, _, qHl, _, _, _, qA, _, _, _, _, qG⟩ :=
        qualUpdate_eq_some hw1.2.1 hs2
      obtain ⟨wA, wQ, wM, wG, wH, wR⟩ := hw1
      refine ⟨by rw [qA, wA], by rw [qQl, wQ], by rw [qM, bump_length, wM], by rw [qG, wG],
        by rw [qHl, wH], ?_⟩
      intro k hk
      simp only [HiQParamSize] at hk
      interval_cases k
      · rw [q0, bump_length]; exact wR 0 (by decide)
      · rw [q1, bump_length]; exact wR 1 (by decide)
    obtain ⟨hM, hT0, hT1⟩ := scan_done_hist rest (line + 4) s2 s' hrest hw2
    have hq : strtokNL (cstr l4) = qualOf l4 := rfl
    rw [hq] at qM q0 q1 qMlt q0lt q1lt hm0
    refine ⟨?_, ?_, ?_⟩
    · intro t
      rw [hM t, qM, bump_getD _ _ _ qMlt, aMq]
      simp only [qualLines, List.countP_cons]
      have e : (t = (minq1 (qualOf l4)).toNat) ↔ (minq1 (qualOf l4) = (t : Int)) := by omega
      by_cases ht : minq1 (qualOf l4) = (t : Int)
      · simp [ht]; omega
      · have : ¬ (t = (minq1 (qualOf l4)).toNat) := fun x => ht (e.1 x)
        simp [ht, this]
    · intro i
      rw [hT0 i]
      simp only [tileCount, qualLines, List.countP_cons]
      rw [q0, bump_getD _ _ _ q0lt, aH]
      by_cases ht : tileOf 15 (qualOf l4) = i
      · simp [ht]; omega
      · have : ¬ (i = tileOf 15 (qualOf l4)) := fun x => ht x.symm
        simp [ht, this]
    · intro i
      rw [hT1 i]
      simp only [tileCount, qualLines, List.countP_cons]
      rw [q1, bump_getD _ _ _ q1lt, aH]
      by_cases ht : tileOf 20 (qualOf l4) = i
      · simp [ht]; omega
      · have : ¬ (i = tileOf 20 (qualOf l4)) := fun x => ht x.symm
        simp [ht, this]

theorem seqUpdate_WF {s s1 : Agg} {seq : List Byte} (hw : s.WF)
    (h : seqUpdate s seq = some s1) : s1.WF := by
  obtain ⟨_, _, _, _, _, _, aAl, _, _, _, aG, aQ, aMq, aH⟩ := seqUpdate_eq_some h
  obtain ⟨wA, wQ, wM, wG, wH, wR⟩ := hw
  exact ⟨by rw [aAl, wA], by rw [aQ, wQ], by rw [aMq, wM], by rw [aG, bump_length, wG],
    by rw [aH, wH], by rw [aH]; exact wR⟩

theorem qualUpdate_WF {s s2 : Agg} {q : List Byte} (hw : s.WF)
    (h : qualUpdate s q = some s2) : s2.WF := by
  obtain ⟨_, _, qQl, _, _, ⟨_, _, _, qM⟩, qHl, ⟨_, q0⟩, ⟨_, q1⟩, _, qA, _, _, _, _, qG⟩ :=
    qualUpdate_eq_some hw.2.1 h
  obtain ⟨wA, wQ, wM, wG, wH, wR⟩ := hw
  refine ⟨by rw [qA, wA], by rw [qQl, wQ], by rw [qM, bump_length, wM], by rw [qG, wG],
    by rw [qHl, wH], ?_⟩
  intro k hk
  simp only [HiQParamSize] at hk
  interval_cases k
  · rw [q0, bump_length]; exact wR 0 (by decide)
  · rw [q1, bump_length]; exact wR 1 (by decide)

/-- A scan that runs to the end has met only records whose updates are defined: the sequence
has 7-bit characters and at least one of `G`, `C`, `A`, `T`; the quality string is not empty,
has the length of the sequence and decodes to scores in `0..41`. -/
theorem scan_done_records : ∀ (input : List (List Byte)) (line : Nat) (s s' : Agg),
    scan input line s = .done s' → s.WF →
    (∀ l2 ∈ seqLines input,
      gcCount (seqOf l2) + atCount (seqOf l2) ≠ 0 ∧ ∀ c ∈ seqOf l2, c.val < 128) ∧
    (∀ l4 ∈ qualLines input, qualOf l4 ≠ [] ∧ (∀ c ∈ qualOf l4, 0 ≤ tmpq c ∧ tmpq c < 42) ∧
      IsMinScore (qualOf l4) (minq1 (qualOf l4))) ∧
    (qualLines input).length = (seqLines input).length ∧
    (qualLines input).map QLen1 = (seqLines input).map SeqLen1
  | [], line, s, s', _, _ => by simp [seqLines, qualLines]
  | [l1], line, s, s', h, _ => absurd h (scan_one_ne_done _ _ _ _)
  | [l1, l2], line, s, s', h, _ => absurd h (scan_two_ne_done _ _ _ _ _)
  | [l1, l2, l3], line, s, s', h, _ => absurd h (scan_three_ne_done _ _ _ _ _ _)
  | l1 :: l2 :: l3 :: l4 :: rest, line, s, s', h, hw => by
    obtain ⟨s1, s2, _, hs1, _, hlen, hs2, hrest⟩ := scan_done_cons h
    have hw1 := seqUpdate_WF hw hs1
    have hw2 := qualUpdate_WF hw1 hs2
    obtain ⟨hne, h7, _⟩ := seqUpdate_eq_some hs1
    obtain ⟨hq, hr, _, _, _, ⟨hmin, _, _, _⟩, _⟩ := qualUpdate_eq_some hw1.2.1 hs2
    obtain ⟨hS, hQ, hL, hM⟩ := scan_done_records rest (line + 4) s2 s' hrest hw2
    refine ⟨?_, ?_, ?_, ?_⟩
    · intro x hx
      simp only [seqLines, List.mem_cons] at hx
      rcases hx with rfl | hx
      · exact ⟨hne, h7⟩
      · exact hS x hx
    · intro x hx
      simp only [qualLines, List.mem_cons] at hx
      rcases hx with rfl | hx
      · exact ⟨hq, hr, hmin⟩
      · exact hQ x hx
    · simp [seqLines, qualLines, hL]
    · simp [seqLines, qualLines, hM, hlen]

/-- Records that the scan has passed do not change what it does with the lines after them. -/
theorem scan_append : ∀ (pre rest : List (List Byte)) (line : Nat) (s s0 : Agg),
    scan pre line s = .done s0 → scan (pre ++ rest) line s = scan rest (line + pre.length) s0
  | [], rest, line, s, s0, h => by
    simp only [scan, Outcome.done.injEq] at h
    subst h
    simp
  | [l1], _, line, s, s0, h => absurd h (scan_one_ne_done _ _ _ _)
  | [l1, l2], _, line, s, s0, h => absurd h (scan_two_ne_done _ _ _ _ _)
  | [l1, l2, l3], _, line, s, s0, h => absurd h (scan_three_ne_done _ _ _ _ _ _)
  | l1 :: l2 :: l3 :: l4 :: pre, rest, line, s, s0, h => by
    obtain ⟨s1, s2, h1, hs1, h3, hlen, hs2, hrest⟩ := scan_done_cons h
    have ih := scan_append pre rest (line + 4) s2 s0 hrest
    have hlen' : (strtokNL (cstr l4)).length = (strtokNL (cstr l2)).length := hlen
    simp only [List.cons_append]
    rw [scan]
    simp only [h1, h3, hs1, hs2, hlen', ne_eq, not_true_eq_false, if_false]
    rw [ih]
    simp only [List.length_cons]
    congr 1
    omega

/-! ## Lines of text -/

theorem stripNewline_cases (l : List Byte) :
    l = stripNewline l ∨ l = stripNewline l ++ [10] := by
  unfold stripNewline
  split
  · rename_i h
    right
    have hne : l ≠ [] := by
      intro e; rw [e] at h; simp at h
    have := List.dropLast_append_getLast hne
    rw [List.getLast?_eq_getLast _ hne] at h
    simp only [Option.some.injEq] at h
    rw [h] at this
    exact this.symm
  · left; rfl

/-- On a line of text `strtok` strips exactly the trailing newline. -/
theorem strtok_of_textLine {l : List Byte} (h : IsTextLine l) :
    strtokNL (cstr l) = stripNewline l := by
  obtain ⟨hne, hall⟩ := h
  have hc : cstr l = l := by
    unfold cstr
    rw [List.takeWhile_eq_self_iff]
    intro c hc
    rcases stripNewline_cases l with e | e
    · rw [e] at hc
      simpa using (hall c hc).1
    · rw [e] at hc
      rcases List.mem_append.1 hc with hc | hc
      · simpa using (hall c hc).1
      · simp only [List.mem_singleton] at hc
        subst hc
        decide
  rw [hc]
  obtain ⟨b, bs, hb⟩ := List.exists_cons_of_ne_nil hne
  have hb10 : b ≠ 10 := (hall b (by rw [hb]; exact List.mem_cons_self _ _)).2
  have htw : (stripNewline l).takeWhile (fun c => c != 10) = stripNewline l := by
    rw [List.takeWhile_eq_self_iff]
    intro c hc
    simpa using (hall c hc).2
  unfold strtokNL
  rcases stripNewline_cases l with e | e
  · have h1 : l.takeWhile (fun c => c == 10) = [] := by
      rw [e, hb]; simp [List.takeWhile_cons, hb10]
    have h2 : l.dropWhile (fun c => c == 10) = l := by
      rw [e, hb]; simp [List.dropWhile_cons, hb10]
    rw [h1, h2, List.nil_append]
    rw [← e] at htw
    rw [htw]
    exact e
  · have h1 : l.takeWhile (fun c => c == 10) = [] := by
      rw [e, hb]; simp [List.takeWhile_cons, hb10]
    have h2 : l.dropWhile (fun c => c == 10) = l := by
      rw [e, hb]; simp [List.dropWhile_cons, hb10]
    rw [h1, h2, List.nil_append]
    have h3 : l.takeWhile (fun c => c != 10) = stripNewline l := by
      conv_lhs => rw [e]
      rw [List.takeWhile_append_of_pos]
      · simp [List.takeWhile_cons]
      · intro c hc
        simpa using (hall c hc).2
    exact h3

/-! ## The coverage curve -/

/-- The running `cumuCnt[k]` after `n` rounds is the sum of the top `n` tiles. -/
theorem cumuCntAfter_eq_drop_sum (s : Agg) (k n : Nat)
    (hrow : (s.HiQPercentCount.getD k []).length = HiQCellSize + 1) (hn : n ≤ HiQCellSize + 1) :
    cumuCntAfter s k n = ((s.HiQPercentCount.getD k []).drop (HiQCellSize + 1 - n)).sum := by
  induction n with
  | zero =>
    simp only [cumuCntAfter, Nat.sub_zero]
    rw [List.drop_of_length_le (by omega)]
    rfl
  | succ n ih =>
    have hlt : HiQCellSize - n < (s.HiQPercentCount.getD k []).length := by omega
    have e1 : HiQCellSize + 1 - (n + 1) = HiQCellSize - n := by omega
    have e2 : HiQCellSize - n + 1 = HiQCellSize + 1 - n := by omega
    rw [cumuCntAfter, ih (by omega), e1, List.drop_eq_getElem_cons hlt, e2, List.sum_cons,
      tileCount, List.getD_eq_getElem _ _ hlt]
    omega

theorem cumuCnt_zero_eq_sum (s : Agg) (k : Nat)
    (hrow : (s.HiQPercentCount.getD k []).length = HiQCellSize + 1) :
    cumuCnt s k 0 = (s.HiQPercentCount.getD k []).sum := by
  rw [cumuCnt, cumuCntAfter_eq_drop_sum s k _ hrow (by omega)]
  simp

/-- The running `cumuCnt[k]` grows from round to round: it is larger at a lower tile. -/
theorem cumuCnt_mono (s : Agg) (k : Nat) {i j : Nat} (hij : i ≤ j) :
    cumuCnt s k j ≤ cumuCnt s k i := by
  have hmono : ∀ a b, a ≤ b → cumuCntAfter s k a ≤ cumuCntAfter s k b := by
    intro a b hab
    induction hab with
    | refl => exact Nat.le_refl _
    | step _ ih => exact Nat.le_trans ih (by simp [cumuCntAfter])
  exact hmono _ _ (by omega)

/-! ## The reference validator -/

theorem firstByte_eq_iff (l : List Byte) (b : Byte) (hb : b ≠ 0) :
    firstByte l = b ↔ l.head? = some b := by
  cases l with
  | nil =>
    simp only [firstByte, List.headD_nil, List.head?_nil]
    constructor
    · intro e; exact absurd e.symm hb
    · intro e; simp at e
  | cons x xs => simp [firstByte]

/-- On clean input the scan reports what the reference validator reports. -/
theorem scan_eq_refValidator : ∀ (input : List (List Byte)) (line : Nat) (s : Agg),
    s.WF → CleanInput input → errorLine (scan input line s) = some (refValidator input line)
  | [], _, _, _, _ => by simp [scan, refValidator, errorLine]
  | [l1], line, s, _, _ => by
    have e1 := firstByte_eq_iff l1 64 (by decide)
    rw [scan, refValidator]
    by_cases h : firstByte l1 = 64
    · simp [h, e1.1 h, errorLine]
    · have : ¬ l1.head? = some 64 := fun x => h (e1.2 x)
      simp [h, this, errorLine]
  | [l1, l2], line, s, hw, hc => by
    have e1 := firstByte_eq_iff l1 64 (by decide)
    obtain ⟨ht, h7, hgc⟩ : CleanSeq l2 := hc
    obtain ⟨s1, hs1⟩ := seqUpdate_defined s _ hw.1 hw.2.2.2.1 h7 hgc
    rw [scan, refValidator]
    by_cases h : firstByte l1 = 64
    · simp [h, e1.1 h, errorLine, strtok_of_textLine ht, hs1]
    · have : ¬ l1.head? = some 64 := fun x => h (e1.2 x)
      simp [h, this, errorLine]
  | [l1, l2, l3], line, s, hw, hc => by
    have e1 := firstByte_eq_iff l1 64 (by decide)
    have e3 := firstByte_eq_iff l3 43 (by decide)
    obtain ⟨ht, h7, hgc⟩ : CleanSeq l2 := hc
    obtain ⟨s1, hs1⟩ := seqUpdate_defined s _ hw.1 hw.2.2.2.1 h7 hgc
    rw [scan, refValidator]
    by_cases h : firstByte l1 = 64
    · by_cases h' : firstByte l3 = 43
      · simp [h, e1.1 h, h', e3.1 h', errorLine, strtok_of_textLine ht, hs1]
      · have : ¬ l3.head? = some 43 := fun x => h' (e3.2 x)
        simp [h, e1.1 h, h', this, errorLine, strtok_of_textLine ht, hs1]
    · have : ¬ l1.head? = some 64 := fun x => h (e1.2 x)
      simp [h, this, errorLine]
  | l1 :: l2 :: l3 :: l4 :: rest, line, s, hw, hc => by
    have e1 := firstByte_eq_iff l1 64 (by decide)
    have e3 := firstByte_eq_iff l3 43 (by decide)
    obtain ⟨⟨ht, h7, hgc⟩, ⟨ht4, hr4⟩, hrest⟩ : CleanSeq l2 ∧ CleanQual l4 ∧ CleanInput rest := hc
    obtain ⟨s1, hs1⟩ := seqUpdate_defined s _ hw.1 hw.2.2.2.1 h7 hgc
    have hw1 := seqUpdate_WF hw hs1
    obtain ⟨s2, hs2⟩ := qualUpdate_defined s1 _ hw1 ht4.1 hr4
    have hw2 := qualUpdate_WF hw1 hs2
    have ih := scan_eq_refValidator rest (line + 4) s2 hw2 hrest
    rw [scan, refValidator]
    by_cases h : firstByte l1 = 64
    · by_cases h' : firstByte l3 = 43
      · by_cases hl : (stripNewline l4).length = (stripNewline l2).length
        · simp [h, e1.1 h, h', e3.1 h', hl, strtok_of_textLine ht, strtok_of_textLine ht4, hs1,
            hs2, ih]
        · simp [h, e1.1 h, h', e3.1 h', hl, errorLine, strtok_of_textLine ht,
            strtok_of_textLine ht4, hs1]
      · have : ¬ l3.head? = some 43 := fun x => h' (e3.2 x)
        simp [h, e1.1 h, h', this, errorLine, strtok_of_textLine ht, hs1]
    · have : ¬ l1.head? = some 64 := fun x => h (e1.2 x)
      simp [h, this, errorLine]

/-! ## The quality bands -/

theorem cov_eq_100_iff (i : Nat) : cov i = 100 ↔ i = 200 := by
  unfold cov HiQCellSize
  constructor
  · intro h
    have h2 : (i : ℚ) = 200 := by
      field_simp at h
      linarith
    exact_mod_cast h2
  · intro h
    subst h
    norm_num

theorem cov_eq_95_iff (i : Nat) : cov i = 95 ↔ i = 190 := by
  unfold cov HiQCellSize
  constructor
  · intro h
    have h2 : (i : ℚ) = 190 := by
      field_simp at h
      linarith
    exact_mod_cast h2
  · intro h
    subst h
    norm_num

theorem cov_eq_90_iff (i : Nat) : cov i = 90 ↔ i = 180 := by
  unfold cov HiQCellSize
  constructor
  · intro h
    have h2 : (i : ℚ) = 180 := by
      field_simp at h
      linarith
    exact_mod_cast h2
  · intro h
    subst h
    norm_num

theorem cumuCnt_succ (s : Agg) (k i : Nat) (hi : i ≤ HiQCellSize) :
    cumuCnt s k i = cumuCnt s k (i + 1) + tileCount s k i := by
  unfold cumuCnt
  have e1 : HiQCellSize + 1 - i = (HiQCellSize - i) + 1 := by omega
  have e2 : HiQCellSize + 1 - (i + 1) = HiQCellSize - i := by omega
  have e3 : HiQCellSize - (HiQCellSize - i) = i := by omega
  rw [e1, e2, cumuCntAfter, e3]

theorem cumuCnt_top (s : Agg) (k : Nat) : cumuCnt s k (HiQCellSize + 1) = 0 := by
  unfold cumuCnt
  rw [Nat.sub_self]
  rfl

/-- The running `cumuCnt[k]` in the round of tile `i` is the sum of the tiles `i..200`. -/
theorem cumuCnt_eq_sum (s : Agg) (k i : Nat) (hi : i ≤ HiQCellSize) :
    cumuCnt s k i = ∑ t in Finset.Icc i HiQCellSize, tileCount s k t := by
  obtain ⟨d, rfl⟩ : ∃ d, i = HiQCellSize - d := ⟨HiQCellSize - i, by omega⟩
  induction d with
  | zero =>
    rw [Nat.sub_zero, cumuCnt_succ s k _ (Nat.le_refl _), cumuCnt_top]
    simp
  | succ d ih =>
    by_cases hd : d + 1 ≤ HiQCellSize
    · have e : HiQCellSize - (d + 1) + 1 = HiQCellSize - d := by omega
      rw [cumuCnt_succ s k _ (Nat.sub_le _ _), e, ih (Nat.sub_le _ _)]
      have hlt : HiQCellSize - (d + 1) ≤ HiQCellSize := Nat.sub_le _ _
      rw [← Finset.Ioc_insert_left hlt, Finset.sum_insert (by simp)]
      have e4 : Finset.Ioc (HiQCellSize - (d + 1)) HiQCellSize
          = Finset.Icc (HiQCellSize - d) HiQCellSize := by
        ext t
        simp only [Finset.mem_Ioc, Finset.mem_Icc]
        omega
      rw [e4]
      omega
    · have e : HiQCellSize - (d + 1) = HiQCellSize - d := by omega
      rw [e]
      exact ih (Nat.sub_le _ _)

theorem MQsum_eq (s : Agg) :
    MQsum s = [bandSum s.MinQCount 10 42, bandSum s.MinQCount 15 42,
      bandSum s.MinQCount 20 42] := by
  simp only [MQsum, QSCORE_SIZE, bandSum, Finset.sum_Ico_eq_sum_range]
  simp [List.range_succ, MQstep, addAt, Finset.sum_range_succ]

/-- Summing, over the buckets of a set, the number of items that fall into each bucket gives
the number of items that fall into the set. -/
theorem sum_countP_mem {α : Type} (L : List α) (f : α → Nat) (S : Finset Nat) :
    ∑ t in S, L.countP (fun l => decide (f l = t)) = L.countP (fun l => decide (f l ∈ S)) := by
  induction L with
  | nil => simp
  | cons x L ih =>
    simp only [List.countP_cons, Finset.sum_add_distrib, ih, decide_eq_true_eq]
    congr 1
    rw [Finset.sum_ite_eq]

theorem tileOf_le_200 (T : Int) (q : List Byte) : tileOf T q ≤ 200 := by
  unfold tileOf HiQCellSize
  have hle : hiQCount T q ≤ q.length := List.countP_le_length _
  rcases Nat.eq_zero_or_pos q.length with h0 | hpos
  · rw [h0, Nat.div_zero]; omega
  · rw [Nat.div_le_iff_le_mul_add_pred hpos]
    have := Nat.mul_le_mul_left 200 hle
    rw [Nat.mul_comm q.length 200]
    omega

theorem tileOf_eq_200_iff (T : Int) (q : List Byte) (hq : q ≠ []) :
    tileOf T q = 200 ↔ ∀ c ∈ q, tmpq c ≥ T := by
  have hpos : 0 < q.length := List.length_pos.2 hq
  have hle : hiQCount T q ≤ q.length := List.countP_le_length _
  have h1 : tileOf T q = 200 ↔ hiQCount T q = q.length := by
    unfold tileOf HiQCellSize
    constructor
    · intro h
      have h2 : 200 ≤ 200 * hiQCount T q / q.length := by omega
      rw [Nat.le_div_iff_mul_le hpos] at h2
      omega
    · intro h
      rw [h]
      exact Nat.mul_div_cancel _ hpos
  rw [h1]
  unfold hiQCount
  rw [List.countP_eq_length]
  simp

/-- Every base with score at least 20 has score at least 15, so the tile of threshold 15 is
not below the tile of threshold 20. -/
theorem tileOf_20_le_15 (q : List Byte) : tileOf 20 q ≤ tileOf 15 q := by
  unfold tileOf
  apply Nat.div_le_div_right
  apply Nat.mul_le_mul_left
  unfold hiQCount
  apply List.countP_mono_left
  intro c _ hc
  simp only [decide_eq_true_eq] at hc ⊢
  omega

/-- The top tile of threshold 20 holds the records whose minimum score is at least 20. -/
theorem top_tile_iff_minq (q : List Byte) (hq : q ≠ []) (hmin : IsMinScore q (minq1 q)) :
    tileOf 20 q = 200 ↔ 20 ≤ minq1 q := by
  rw [tileOf_eq_200_iff 20 q hq]
  obtain ⟨⟨c, hc, hcm⟩, hle⟩ := hmin
  constructor
  · intro h
    rw [hcm]
    exact h c hc
  · intro h x hx
    have := hle x hx
    omega

theorem cumuCnt_200 (s : Agg) (k : Nat) : cumuCnt s k 200 = tileCount s k 200 := by
  have h := cumuCnt_succ s k 200 (by decide)
  have e : (200 : Nat) + 1 = HiQCellSize + 1 := rfl
  rw [e, cumuCnt_top] at h
  omega

/-- At the end of a scan the top tile of threshold 20 and the buckets 20..41 of `MinQCount`
both count the records whose minimum score is at least 20. -/
theorem scan_done_top_tile (input : List (List Byte)) (s : Agg)
    (h : ProbeFASTQ input = .done s) :
    tileCount s 1 200
        = (qualLines input).countP (fun l4 => decide (20 ≤ minq1 (qualOf l4))) ∧
      bandSum s.MinQCount 20 42
        = (qualLines input).countP (fun l4 => decide (20 ≤ minq1 (qualOf l4))) := by
  obtain ⟨_, hQ, _, _⟩ := scan_done_records input 0 Agg.init s h init_WF
  obtain ⟨hM, _, hT1⟩ := scan_done_hist input 0 Agg.init s h init_WF
  have hrange : ∀ l4 ∈ qualLines input, 0 ≤ minq1 (qualOf l4) ∧ minq1 (qualOf l4) < 42 := by
    intro l4 hl
    obtain ⟨_, hr, ⟨c, hc, hcm⟩, _⟩ := hQ l4 hl
    rw [hcm]
    exact hr c hc
  constructor
  · rw [hT1 200]
    have e0 : tileCount Agg.init 1 200 = 0 := by simp [tileCount, Agg.init, HiQParamSize]
    rw [e0, Nat.zero_add]
    apply List.countP_congr
    intro l4 hl
    simp only [decide_eq_true_eq]
    exact top_tile_iff_minq _ (hQ l4 hl).1 (hQ l4 hl).2.2
  · unfold bandSum
    have e1 : ∀ t ∈ Finset.Ico 20 42, s.MinQCount.getD t 0
        = (qualLines input).countP (fun l4 => decide ((minq1 (qualOf l4)).toNat = t)) := by
      intro t _
      rw [hM t]
      have e0 : Agg.init.MinQCount.getD t 0 = 0 := by simp [Agg.init]
      rw [e0, Nat.zero_add]
      apply List.countP_congr
      intro l4 hl
      simp only [decide_eq_true_eq]
      have := hrange l4 hl
      omega
    rw [Finset.sum_congr rfl e1, sum_countP_mem]
    apply List.countP_congr
    intro l4 hl
    simp only [decide_eq_true_eq, Finset.mem_Ico]
    have := hrange l4 hl
    omega

/-- At the end of a scan the tiles 180..200 of threshold 15 hold at least the records of the
top tile of threshold 20. -/
theorem scan_done_tile_le (input : List (List Byte)) (s : Agg)
    (h : ProbeFASTQ input = .done s) : cumuCnt s 1 200 ≤ cumuCnt s 0 180 := by
  obtain ⟨_, hT0, hT1⟩ := scan_done_hist input 0 Agg.init s h init_WF
  rw [cumuCnt_200, cumuCnt_eq_sum s 0 180 (by decide), hT1 200]
  have e1 : ∀ t ∈ Finset.Icc 180 HiQCellSize, tileCount s 0 t
      = (qualLines input).countP (fun l4 => decide (tileOf 15 (qualOf l4) = t)) := by
    intro t _
    rw [hT0 t]
    have e0 : tileCount Agg.init 0 t = 0 := by simp [tileCount, Agg.init, HiQParamSize]
    rw [e0, Nat.zero_add]
  have e0 : tileCount Agg.init 1 200 = 0 := by simp [tileCount, Agg.init, HiQParamSize]
  rw [Finset.sum_congr rfl e1, sum_countP_mem, e0, Nat.zero_add]
  apply List.countP_mono_left
  intro l4 _ hl
  simp only [decide_eq_true_eq, Finset.mem_Icc, HiQCellSize] at hl ⊢
  have h1 := tileOf_20_le_15 (qualOf l4)
  have h2 := tileOf_le_200 15 (qualOf l4)
  omega

/-- With at least one read every point of the coverage curve lies between 0 and 1. -/
theorem cumuRatio_bounds (input : List (List Byte)) (s : Agg)
    (h : ProbeFASTQ input = .done s) (hR : 0 < s.ReadCount) (k i : Nat)
    (hk : k < HiQParamSize) : 0 ≤ cumuRatio s k i ∧ cumuRatio s k i ≤ 1 := by
  obtain ⟨hw, hb, _, _, _⟩ := scan_done_inv input 0 Agg.init s h init_WF init_Balanced
  have hlen := hw.2.2.2.2.2 k hk
  have hsum := hb.2.2.2.2 k hk
  have htop : cumuCnt s k i ≤ s.ReadCount := by
    rw [← hsum, ← cumuCnt_zero_eq_sum s k hlen]
    exact cumuCnt_mono s k (Nat.zero_le i)
  have hRq : (0 : ℚ) < (s.ReadCount : ℚ) := by exact_mod_cast hR
  unfold cumuRatio
  refine ⟨by positivity, ?_⟩
  rw [div_le_one hRq]
  exact_mod_cast htop

/-! ## Degenerate records -/

/-- A sequence without `G`, `C`, `A`, `T` makes the GC% step divide zero by zero: the update is
undefined. -/
theorem seqUpdate_none_of_no_gcat (s : Agg) (seq : List Byte)
    (h : gcCount seq + atCount seq = 0) : seqUpdate s seq = none := by
  unfold seqUpdate
  simp only
  split
  · rfl
  · rename_i ac g a hloop
    obtain ⟨_, _, _, hg, ha, _⟩ := seqLoop_eq_some hloop
    have hz : g + a = 0 := by omega
    have hv : GCvalue g a = none := by
      unfold GCvalue
      rw [if_pos hz]
    simp only [hv]

/-- An empty quality string makes the tile step divide zero by zero: the update is
undefined. -/
theorem qualUpdate_nil (s : Agg) : qualUpdate s [] = none := by
  unfold qualUpdate
  simp only [qualLoop, List.length_nil]
  split
  · rfl
  · have hrep : List.replicate HiQParamSize 0 = [0, 0] := rfl
    simp only [hrep, tileLoop, HiqpTileNo, if_true]

/-! ## Rounding to the nearest `double` -/

theorem roundEven_cases (q : ℚ) : roundEven q = ⌊q⌋ ∨ roundEven q = ⌊q⌋ + 1 := by
  unfold roundEven
  split_ifs <;> simp

theorem roundEven_sub_le (q : ℚ) : |(roundEven q : ℚ) - q| ≤ 1 / 2 := by
  have h1 : ((⌊q⌋ : ℤ) : ℚ) ≤ q := Int.floor_le q
  have h2 : q < ((⌊q⌋ : ℤ) : ℚ) + 1 := Int.lt_floor_add_one q
  rw [abs_le]
  unfold roundEven
  split_ifs <;> push_cast <;> constructor <;> linarith

theorem roundEven_intCast (z : ℤ) : roundEven (z : ℚ) = z := by
  unfold roundEven
  simp

theorem roundEven_mono {q r : ℚ} (h : q ≤ r) : roundEven q ≤ roundEven r := by
  have hf : ⌊q⌋ ≤ ⌊r⌋ := Int.floor_mono h
  rcases hf.lt_or_eq with hlt | heq
  · have h1 : roundEven q ≤ ⌊q⌋ + 1 := by
      rcases roundEven_cases q with e | e <;> omega
    have h2 : ⌊r⌋ ≤ roundEven r := by
      rcases roundEven_cases r with e | e <;> omega
    omega
  · unfold roundEven
    rw [← heq]
    split_ifs <;> first | omega | (exfalso; linarith)

theorem log_eq_of {x : ℚ} {e : ℤ} (h1 : (2 : ℚ) ^ e ≤ x) (h2 : x < (2 : ℚ) ^ (e + 1)) :
    Int.log 2 x = e := by
  have hx : 0 < x := lt_of_lt_of_le (by positivity) h1
  have a : e ≤ Int.log 2 x := (Int.zpow_le_iff_le_log (by norm_num) hx).1 (by exact_mod_cast h1)
  have b : Int.log 2 x < e + 1 := (Int.lt_zpow_iff_log_lt (by norm_num) hx).1 (by exact_mod_cast h2)
  omega

theorem log_bounds {x : ℚ} (hx : 0 < x) :
    (2 : ℚ) ^ Int.log 2 x ≤ x ∧ x < (2 : ℚ) ^ (Int.log 2 x + 1) := by
  have a : ((2 : ℕ) : ℚ) ^ Int.log 2 x ≤ x := Int.zpow_log_le_self (by norm_num) hx
  have b : x < ((2 : ℕ) : ℚ) ^ (Int.log 2 x + 1) := Int.lt_zpow_succ_log_self (by norm_num) x
  exact ⟨by exact_mod_cast a, by exact_mod_cast b⟩


theorem flPos_scaled {x : ℚ} (hx : 0 < x) :
    (2 : ℚ) ^ (52 : ℤ) ≤ x * (2 : ℚ) ^ (52 - Int.log 2 x) ∧
      x * (2 : ℚ) ^ (52 - Int.log 2 x) < (2 : ℚ) ^ (53 : ℤ) := by
  obtain ⟨a, b⟩ := log_bounds hx
  have hp : (0 : ℚ) < (2 : ℚ) ^ (52 - Int.log 2 x) := by positivity
  have e1 : (2 : ℚ) ^ Int.log 2 x * (2 : ℚ) ^ (52 - Int.log 2 x) = (2 : ℚ) ^ (52 : ℤ) := by
    rw [← zpow_add₀ (by norm_num)]
    congr 1
    omega
  have e2 : (2 : ℚ) ^ (Int.log 2 x + 1) * (2 : ℚ) ^ (52 - Int.log 2 x) = (2 : ℚ) ^ (53 : ℤ) := by
    rw [← zpow_add₀ (by norm_num)]
    congr 1
    omega
  constructor
  · rw [← e1]
    exact mul_le_mul_of_nonneg_right a hp.le
  · rw [← e2]
    exact mul_lt_mul_of_pos_right b hp

theorem flPos_unscale (x : ℚ) :
    x * (2 : ℚ) ^ (52 - Int.log 2 x) * (2 : ℚ) ^ (Int.log 2 x - 52) = x := by
  rw [mul_assoc, ← zpow_add₀ (by norm_num)]
  have : 52 - Int.log 2 x + (Int.log 2 x - 52) = 0 := by omega
  rw [this]
  simp

/-- The mantissa of the rounding of a positive number lies between `2^52` and `2^53`. -/
theorem roundEven_scaled {x : ℚ} (hx : 0 < x) :
    (2 : ℤ) ^ 52 ≤ roundEven (x * (2 : ℚ) ^ (52 - Int.log 2 x)) ∧
      roundEven (x * (2 : ℚ) ^ (52 - Int.log 2 x)) ≤ (2 : ℤ) ^ 53 := by
  obtain ⟨a, b⟩ := flPos_scaled hx
  have h1 := roundEven_mono a
  have h2 := roundEven_mono b.le
  have c1 : ((2 : ℚ) ^ (52 : ℤ)) = (((2 : ℤ) ^ 52 : ℤ) : ℚ) := by norm_num
  have c2 : ((2 : ℚ) ^ (53 : ℤ)) = (((2 : ℤ) ^ 53 : ℤ) : ℚ) := by norm_num
  rw [c1, roundEven_intCast] at h1
  rw [c2, roundEven_intCast] at h2
  exact ⟨h1, h2⟩

theorem flPos_zero : flPos 0 = 0 := by
  simp [flPos, roundEven]

theorem flPos_bounds {x : ℚ} (hx : 0 < x) :
    (2 : ℚ) ^ Int.log 2 x ≤ flPos x ∧ flPos x ≤ (2 : ℚ) ^ (Int.log 2 x + 1) := by
  obtain ⟨a, b⟩ := roundEven_scaled hx
  have hp : (0 : ℚ) < (2 : ℚ) ^ (Int.log 2 x - 52) := by positivity
  have a1 : ((2 : ℚ) ^ (52 : ℤ)) ≤ (roundEven (x * (2 : ℚ) ^ (52 - Int.log 2 x)) : ℚ) := by
    have h : (((2 : ℤ) ^ 52 : ℤ) : ℚ) ≤ (roundEven (x * (2 : ℚ) ^ (52 - Int.log 2 x)) : ℚ) := by
      exact_mod_cast a
    norm_num at h ⊢
    exact h
  have b1 : (roundEven (x * (2 : ℚ) ^ (52 - Int.log 2 x)) : ℚ) ≤ ((2 : ℚ) ^ (53 : ℤ)) := by
    have h : (roundEven (x * (2 : ℚ) ^ (52 - Int.log 2 x)) : ℚ) ≤ (((2 : ℤ) ^ 53 : ℤ) : ℚ) := by
      exact_mod_cast b
    norm_num at h ⊢
    exact h
  have e1 : (2 : ℚ) ^ (52 : ℤ) * (2 : ℚ) ^ (Int.log 2 x - 52) = (2 : ℚ) ^ Int.log 2 x := by
    rw [← zpow_add₀ (by norm_num)]
    congr 1
    omega
  have e2 : (2 : ℚ) ^ (53 : ℤ) * (2 : ℚ) ^ (Int.log 2 x - 52) = (2 : ℚ) ^ (Int.log 2 x + 1) := by
    rw [← zpow_add₀ (by norm_num)]
    congr 1
    omega
  unfold flPos
  constructor
  · rw [← e1]
    exact mul_le_mul_of_nonneg_right a1 hp.le
  · rw [← e2]
    exact mul_le_mul_of_nonneg_right b1 hp.le

theorem flPos_nonneg {x : ℚ} (hx : 0 ≤ x) : 0 ≤ flPos x := by
  rcases hx.lt_or_eq with h | h
  · exact le_trans (by positivity) (flPos_bounds h).1
  · rw [← h, flPos_zero]

/-- The rounding error of a positive number is at most half a unit in the last place. -/
theorem flPos_err (x : ℚ) :
    |flPos x - x| ≤ (2 : ℚ) ^ (Int.log 2 x - 53) := by
  have hp : (0 : ℚ) < (2 : ℚ) ^ (Int.log 2 x - 52) := by positivity
  have h := roundEven_sub_le (x * (2 : ℚ) ^ (52 - Int.log 2 x))
  have e : flPos x - x = ((roundEven (x * (2 : ℚ) ^ (52 - Int.log 2 x)) : ℚ)
      - x * (2 : ℚ) ^ (52 - Int.log 2 x)) * (2 : ℚ) ^ (Int.log 2 x - 52) := by
    rw [sub_mul, flPos_unscale]
    rfl
  have e3 : (1 / 2 : ℚ) * (2 : ℚ) ^ (Int.log 2 x - 52) = (2 : ℚ) ^ (Int.log 2 x - 53) := by
    have : Int.log 2 x - 52 = (Int.log 2 x - 53) + 1 := by omega
    rw [this, zpow_add₀ (by norm_num)]
    ring
  rw [e, abs_mul, abs_of_pos hp, ← e3]
  exact mul_le_mul_of_nonneg_right h hp.le

theorem flPos_mono {x y : ℚ} (hx : 0 < x) (h : x ≤ y) : flPos x ≤ flPos y := by
  have hy : 0 < y := lt_of_lt_of_le hx h
  have hl : Int.log 2 x ≤ Int.log 2 y := Int.log_mono_right hx h
  rcases hl.lt_or_eq with hlt | heq
  · have h1 := (flPos_bounds hx).2
    have h2 := (flPos_bounds hy).1
    have h3 : (2 : ℚ) ^ (Int.log 2 x + 1) ≤ (2 : ℚ) ^ Int.log 2 y :=
      zpow_le_zpow_right₀ (by norm_num) (by omega)
    linarith
  · unfold flPos
    rw [← heq]
    have hp : (0 : ℚ) < (2 : ℚ) ^ (Int.log 2 x - 52) := by positivity
    have hq : (0 : ℚ) < (2 : ℚ) ^ (52 - Int.log 2 x) := by positivity
    have : roundEven (x * (2 : ℚ) ^ (52 - Int.log 2 x))
        ≤ roundEven (y * (2 : ℚ) ^ (52 - Int.log 2 x)) :=
      roundEven_mono (mul_le_mul_of_nonneg_right h hq.le)
    exact mul_le_mul_of_nonneg_right (by exact_mod_cast this) hp.le

theorem fl_zero : fl 0 = 0 := by
  simp [fl, flPos_zero]

theorem fl_one : fl 1 = 1 := by
  have c : (1 : ℚ) * (2 : ℚ) ^ (52 - 0 : ℤ) = (((2 : ℤ) ^ 52 : ℤ) : ℚ) := by norm_num
  have h : (0 : ℚ) ≤ 1 := by norm_num
  simp only [fl, h, if_true, flPos, Int.log_one_right]
  rw [c, roundEven_intCast]
  norm_num

theorem fl_of_nonneg {x : ℚ} (hx : 0 ≤ x) : fl x = flPos x := by
  simp [fl, hx]

theorem fl_neg (x : ℚ) : fl (-x) = -fl x := by
  rcases lt_trichotomy x 0 with h | h | h
  · have h1 : ¬ (0 ≤ x) := not_le.2 h
    have h2 : 0 ≤ -x := by linarith
    simp [fl, h1, h2]
  · subst h
    simp [fl_zero]
  · have h1 : 0 ≤ x := h.le
    have h2 : ¬ (0 ≤ -x) := by
      intro h3
      linarith
    simp only [fl, h1, h2, if_true, if_false, neg_neg]

theorem fl_nonneg {x : ℚ} (hx : 0 ≤ x) : 0 ≤ fl x := by
  rw [fl_of_nonneg hx]
  exact flPos_nonneg hx

theorem fl_mono {x y : ℚ} (h : x ≤ y) : fl x ≤ fl y := by
  rcases lt_trichotomy 0 x with hx | hx | hx
  · rw [fl_of_nonneg hx.le, fl_of_nonneg (hx.le.trans h)]
    exact flPos_mono hx h
  · subst hx
    rw [fl_zero]
    exact fl_nonneg h
  · rcases le_or_lt 0 y with hy | hy
    · have h1 : fl x ≤ 0 := by
        have := fl_nonneg (x := -x) (by linarith)
        rw [fl_neg] at this
        linarith
      exact h1.trans (fl_nonneg hy)
    · have h1 : fl (-y) ≤ fl (-x) := by
        rw [fl_of_nonneg (x := -y) (by linarith), fl_of_nonneg (x := -x) (by linarith)]
        exact flPos_mono (by linarith) (by linarith)
      rw [fl_neg, fl_neg] at h1
      linarith

/-- The relative rounding error is at most `2^-53`. -/
theorem fl_err (x : ℚ) : |fl x - x| ≤ (2 : ℚ) ^ (-53 : ℤ) * |x| := by
  have key : ∀ y : ℚ, 0 < y → |fl y - y| ≤ (2 : ℚ) ^ (-53 : ℤ) * y := by
    intro y hy
    rw [fl_of_nonneg hy.le]
    refine (flPos_err y).trans ?_
    have e : (2 : ℚ) ^ (Int.log 2 y - 53) = (2 : ℚ) ^ (-53 : ℤ) * (2 : ℚ) ^ Int.log 2 y := by
      rw [← zpow_add₀ (by norm_num)]
      congr 1
      omega
    rw [e]
    exact mul_le_mul_of_nonneg_left (log_bounds hy).1 (by positivity)
  rcases lt_trichotomy 0 x with hx | hx | hx
  · rw [abs_of_pos hx]
    exact key x hx
  · subst hx
    simp [fl_zero]
  · have := key (-x) (by linarith)
    rw [fl_neg] at this
    rw [abs_of_neg hx]
    have e : -fl x - -x = -(fl x - x) := by ring
    rw [e, abs_neg] at this
    exact this

/-- The absolute rounding error of a number in `[-1, 1]` is at most `2^-54`. -/
theorem fl_err_le_one {x : ℚ} (h : |x| ≤ 1) : |fl x - x| ≤ (2 : ℚ) ^ (-54 : ℤ) := by
  have key : ∀ y : ℚ, 0 < y → y ≤ 1 → |fl y - y| ≤ (2 : ℚ) ^ (-54 : ℤ) := by
    intro y hy hy1
    rcases hy1.lt_or_eq with hlt | heq
    · rw [fl_of_nonneg hy.le]
      refine (flPos_err y).trans ?_
      have hl : Int.log 2 y < 0 :=
        (Int.lt_zpow_iff_log_lt (by norm_num) hy).1 (by simpa using hlt)
      exact zpow_le_zpow_right₀ (by norm_num) (by omega)
    · subst heq
      rw [fl_one, sub_self, abs_zero]
      positivity
  rcases lt_trichotomy 0 x with hx | hx | hx
  · exact key x hx (by rwa [abs_of_pos hx] at h)
  · subst hx
    rw [fl_zero, sub_self, abs_zero]
    positivity
  · have := key (-x) (by linarith) (by rwa [abs_of_neg hx] at h)
    rw [fl_neg] at this
    have e : -fl x - -x = -(fl x - x) := by ring
    rw [e, abs_neg] at this
    exact this

theorem flPos_of_int {x : ℚ} (z : ℤ) (hz : x * (2 : ℚ) ^ (52 - Int.log 2 x) = (z : ℚ)) :
    flPos x = x := by
  have h := flPos_unscale x
  unfold flPos
  rw [hz, roundEven_intCast, ← hz]
  exact h

/-- A number with a mantissa below `2^53` is a `double`: rounding leaves it unchanged. -/
theorem fl_repr (k : ℕ) (j : ℤ) (hk : k < 2 ^ 53) :
    fl ((k : ℚ) * (2 : ℚ) ^ j) = (k : ℚ) * (2 : ℚ) ^ j := by
  rcases Nat.eq_zero_or_pos k with h0 | hpos
  · subst h0
    simp [fl_zero]
  have hkq : (0 : ℚ) < (k : ℚ) := by exact_mod_cast hpos
  have hx : (0 : ℚ) < (k : ℚ) * (2 : ℚ) ^ j := by positivity
  rw [fl_of_nonneg hx.le]
  obtain ⟨e, he⟩ : ∃ e, e = Int.log 2 ((k : ℚ) * (2 : ℚ) ^ j) := ⟨_, rfl⟩
  have a := (flPos_scaled hx).1
  rw [← he] at a
  have eq : (k : ℚ) * (2 : ℚ) ^ j * (2 : ℚ) ^ (52 - e) = (k : ℚ) * (2 : ℚ) ^ (j + 52 - e) := by
    rw [mul_assoc, ← zpow_add₀ (by norm_num)]
    congr 2
    omega
  have hd : 0 ≤ j + 52 - e := by
    by_contra hneg
    push_neg at hneg
    have h2 : (2 : ℚ) ^ (j + 52 - e) ≤ (2 : ℚ) ^ (-1 : ℤ) :=
      zpow_le_zpow_right₀ (by norm_num) (by omega)
    have h3 : (k : ℚ) < (2 : ℚ) ^ (53 : ℤ) := by
      have : (k : ℚ) < ((2 ^ 53 : ℕ) : ℚ) := by exact_mod_cast hk
      norm_num at this ⊢
      exact this
    have h4 : (k : ℚ) * (2 : ℚ) ^ (j + 52 - e) ≤ (k : ℚ) * (2 : ℚ) ^ (-1 : ℤ) :=
      mul_le_mul_of_nonneg_left h2 hkq.le
    have h5 : (k : ℚ) * (2 : ℚ) ^ (-1 : ℤ) < (2 : ℚ) ^ (53 : ℤ) * (2 : ℚ) ^ (-1 : ℤ) :=
      mul_lt_mul_of_pos_right h3 (by positivity)
    have h6 : (2 : ℚ) ^ (53 : ℤ) * (2 : ℚ) ^ (-1 : ℤ) = (2 : ℚ) ^ (52 : ℤ) := by
      rw [← zpow_add₀ (by norm_num)]
      norm_num
    rw [eq] at a
    linarith
  obtain ⟨n, hn⟩ := Int.eq_ofNat_of_zero_le hd
  apply flPos_of_int ((k * 2 ^ n : ℕ) : ℤ)
  rw [← he, eq, hn]
  push_cast
  rw [zpow_natCast]

theorem toDouble_eq (n : ℕ) (h : n < 2 ^ 53) : toDouble n = (n : ℚ) := by
  have := fl_repr n 0 h
  simpa [toDouble] using this

theorem toDouble_nonneg (n : ℕ) : 0 ≤ toDouble n := fl_nonneg (Nat.cast_nonneg n)

theorem toDouble_mono {a b : ℕ} (h : a ≤ b) : toDouble a ≤ toDouble b :=
  fl_mono (by exact_mod_cast h)

theorem toDouble_pos {n : ℕ} (h : 0 < n) : 0 < toDouble n := by
  have h1 : toDouble 1 ≤ toDouble n := toDouble_mono h
  have h2 : toDouble 1 = 1 := by simpa using toDouble_eq 1 (by norm_num)
  linarith

theorem roundEven_eq_of_lt {q : ℚ} (z : ℤ) (h1 : (z : ℚ) - 1 / 2 < q) (h2 : q < (z : ℚ) + 1 / 2) :
    roundEven q = z := by
  have h := abs_le.1 (roundEven_sub_le q)
  have a : ((roundEven q : ℤ) : ℚ) < ((z + 1 : ℤ) : ℚ) := by
    push_cast
    linarith [h.2]
  have b : ((z - 1 : ℤ) : ℚ) < ((roundEven q : ℤ) : ℚ) := by
    push_cast
    linarith [h.1]
  have a1 : roundEven q < z + 1 := by exact_mod_cast a
  have b1 : z - 1 < roundEven q := by exact_mod_cast b
  omega

theorem roundEven_tie {q : ℚ} (z : ℤ) (h : q = (z : ℚ) + 1 / 2) :
    roundEven q = if z % 2 = 0 then z else z + 1 := by
  have hf : ⌊q⌋ = z := by
    rw [Int.floor_eq_iff]
    constructor <;> linarith
  unfold roundEven
  rw [hf, h]
  have e : (z : ℚ) + 1 / 2 - (z : ℚ) = 1 / 2 := by ring
  rw [e]
  simp

/-- The evaluation of a rounding from the binade of the argument and the rounded mantissa. -/
theorem fl_eval {x : ℚ} (e m : ℤ) (h1 : (2 : ℚ) ^ e ≤ x) (h2 : x < (2 : ℚ) ^ (e + 1))
    (hm : roundEven (x * (2 : ℚ) ^ (52 - e)) = m) : fl x = (m : ℚ) * (2 : ℚ) ^ (e - 52) := by
  have hx : 0 < x := lt_of_lt_of_le (by positivity) h1
  rw [fl_of_nonneg hx.le, flPos, log_eq_of h1 h2, hm]

/-- The rounding of a number between `1/2` and `1` is a multiple of `2^-53`. -/
theorem fl_grid {w : ℚ} (h1 : 1 / 2 ≤ w) (h2 : w ≤ 1) :
    ∃ k : ℕ, 2 ^ 52 ≤ k ∧ k ≤ 2 ^ 53 ∧ fl w = (k : ℚ) * (2 : ℚ) ^ (-53 : ℤ) := by
  rcases h2.lt_or_eq with hlt | heq
  · have hw : 0 < w := by linarith
    have hl : Int.log 2 w = -1 := log_eq_of (by norm_num; linarith) (by norm_num; exact hlt)
    obtain ⟨a, b⟩ := roundEven_scaled hw
    rw [hl] at a b
    obtain ⟨n, hn⟩ := Int.eq_ofNat_of_zero_le (le_trans (by norm_num) a)
    refine ⟨n, ?_, ?_, ?_⟩
    · rw [hn] at a
      exact_mod_cast a
    · rw [hn] at b
      exact_mod_cast b
    · rw [fl_of_nonneg hw.le, flPos, hl, hn]
      norm_num
  · subst heq
    refine ⟨2 ^ 53, by norm_num, le_refl _, ?_⟩
    rw [fl_one]
    norm_num

/-- The subtraction `1 - p` is exact for a `double` `p` between `1/2` and `1`. -/
theorem fl_one_sub_grid (k : ℕ) (h1 : 2 ^ 52 ≤ k) (h2 : k ≤ 2 ^ 53) :
    fl (1 - (k : ℚ) * (2 : ℚ) ^ (-53 : ℤ)) = 1 - (k : ℚ) * (2 : ℚ) ^ (-53 : ℤ) := by
  have e : 1 - (k : ℚ) * (2 : ℚ) ^ (-53 : ℤ) = ((2 ^ 53 - k : ℕ) : ℚ) * (2 : ℚ) ^ (-53 : ℤ) := by
    rw [Nat.cast_sub h2]
    push_cast
    rw [sub_mul]
    norm_num
  rw [e]
  exact fl_repr _ _ (by omega)

theorem fl_grid_self (k : ℕ) (h2 : k ≤ 2 ^ 53) :
    fl ((k : ℚ) * (2 : ℚ) ^ (-53 : ℤ)) = (k : ℚ) * (2 : ℚ) ^ (-53 : ℤ) := by
  rcases h2.lt_or_eq with hlt | heq
  · exact fl_repr _ _ hlt
  · subst heq
    have e : ((2 ^ 53 : ℕ) : ℚ) * (2 : ℚ) ^ (-53 : ℤ) = 1 := by norm_num
    rw [e, fl_one]

theorem roundEven_close {a b : ℚ} (h : |a - b| < 1) : |roundEven a - roundEven b| ≤ 1 := by
  have ha := abs_le.1 (roundEven_sub_le a)
  have hb := abs_le.1 (roundEven_sub_le b)
  have hab := abs_lt.1 h
  have u : ((roundEven a - roundEven b : ℤ) : ℚ) < ((2 : ℤ) : ℚ) := by
    push_cast
    linarith [ha.2, hb.1, hab.2]
  have l : ((-2 : ℤ) : ℚ) < ((roundEven a - roundEven b : ℤ) : ℚ) := by
    push_cast
    linarith [ha.1, hb.2, hab.1]
  have u1 : roundEven a - roundEven b < 2 := by exact_mod_cast u
  have l1 : -2 < roundEven a - roundEven b := by exact_mod_cast l
  rw [abs_le]
  constructor <;> omega

theorem fl_half : fl (1 / 2) = 1 / 2 := by
  have h := fl_repr 1 (-1) (by norm_num)
  have e : ((1 : ℕ) : ℚ) * (2 : ℚ) ^ (-1 : ℤ) = 1 / 2 := by norm_num
  rwa [e] at h

theorem fl_neg_tiny : fl (-(2 : ℚ) ^ (-54 : ℤ)) = -(2 : ℚ) ^ (-54 : ℤ) := by
  have h := fl_repr 1 (-54) (by norm_num)
  rw [Nat.cast_one, one_mul] at h
  rw [fl_neg, h]

/-- The three values of the pie chart, for a `double` `x` (high) and the `double` quotient
`fl z` of which `1 - fl z` is rounded to `p` (poor): the subtraction `1.0 - p` is exact, the
medium value `(1.0 - p) - x` is at least `-2^-54`, and the three values add up to `1` with an
error of at most `2^-54`. -/
theorem pie_values (x z : ℚ) (hz0 : 0 ≤ z) (hz1 : z ≤ 1) (hx0 : 0 ≤ x) (hxy : x ≤ fl z) :
    0 ≤ fl (1 - fl z) ∧ fl (1 - fl z) ≤ 1 ∧ fl (1 - fl (1 - fl z)) = 1 - fl (1 - fl z) ∧
      -(2 : ℚ) ^ (-54 : ℤ) ≤ fl (fl (1 - fl (1 - fl z)) - x) ∧
      |fl (1 - fl z) + fl (fl (1 - fl (1 - fl z)) - x) + x - 1| ≤ (2 : ℚ) ^ (-54 : ℤ) := by
  have hy0 : 0 ≤ fl z := fl_nonneg hz0
  have hy1 : fl z ≤ 1 := by
    have := fl_mono hz1
    rwa [fl_one] at this
  have hp0 : 0 ≤ fl (1 - fl z) := fl_nonneg (by linarith)
  have hp1 : fl (1 - fl z) ≤ 1 := by
    have := fl_mono (show 1 - fl z ≤ 1 by linarith)
    rwa [fl_one] at this
  have htiny : (0 : ℚ) < (2 : ℚ) ^ (-54 : ℤ) := by positivity
  rcases le_or_lt (1 / 2) z with hz | hz
  · -- the quotient is at least 1/2: both subtractions are exact
    have hy2 : 1 / 2 ≤ fl z := by
      have := fl_mono hz
      rwa [fl_half] at this
    obtain ⟨k, hk1, hk2, hk⟩ := fl_grid hz hz1
    have e1 : fl (1 - fl z) = 1 - fl z := by
      rw [hk]
      exact fl_one_sub_grid k hk1 hk2
    have e2 : fl (1 - fl (1 - fl z)) = 1 - fl (1 - fl z) := by
      rw [e1]
      have : 1 - (1 - fl z) = fl z := by ring
      rw [this, hk]
      exact fl_grid_self k hk2
    have e3 : fl (1 - fl (1 - fl z)) = fl z := by
      rw [e2, e1]
      ring
    refine ⟨hp0, hp1, e2, ?_, ?_⟩
    · rw [e3]
      have := fl_mono (show (0 : ℚ) ≤ fl z - x by linarith)
      rw [fl_zero] at this
      linarith
    · rw [e3, e1]
      have h := fl_err_le_one (x := fl z - x) (by rw [abs_le]; constructor <;> linarith)
      have e : 1 - fl z + fl (fl z - x) + x - 1 = fl (fl z - x) - (fl z - x) := by ring
      rw [e]
      exact h
  · -- the quotient is below 1/2: the poor value is a multiple of 2^-53
    have hy2 : fl z ≤ 1 / 2 := by
      have := fl_mono hz.le
      rwa [fl_half] at this
    have hw1 : 1 / 2 ≤ 1 - fl z := by linarith
    have hw2 : 1 - fl z ≤ 1 := by linarith
    obtain ⟨k, hk1, hk2, hk⟩ := fl_grid hw1 hw2
    have e2 : fl (1 - fl (1 - fl z)) = 1 - fl (1 - fl z) := by
      rw [hk]
      exact fl_one_sub_grid k hk1 hk2
    have herr := abs_le.1 (fl_err_le_one (x := 1 - fl z) (by rw [abs_le]; constructor <;> linarith))
    have hp2 : 1 / 2 ≤ fl (1 - fl z) := by
      have := fl_mono hw1
      rwa [fl_half] at this
    have hlow : -(2 : ℚ) ^ (-54 : ℤ) ≤ 1 - fl (1 - fl z) - x := by linarith [herr.2]
    refine ⟨hp0, hp1, e2, ?_, ?_⟩
    · rw [e2]
      have := fl_mono hlow
      rwa [fl_neg_tiny] at this
    · rw [e2]
      have hsmall : (2 : ℚ) ^ (-54 : ℤ) ≤ 1 := by norm_num
      have h := fl_err_le_one (x := 1 - fl (1 - fl z) - x)
        (by rw [abs_le]; constructor <;> linarith)
      have e : fl (1 - fl z) + fl (1 - fl (1 - fl z) - x) + x - 1
          = fl (1 - fl (1 - fl z) - x) - (1 - fl (1 - fl z) - x) := by ring
      rw [e]
      exact h

/-- The two ways in which the report computes a percentage from the counts `M ≤ R`: both
`100.0*(M/R)` and `(100.0*M)/R` are within `2^-45` of the exact percentage. -/
theorem percent_close (M R : ℕ) (hR : 0 < R) (hMR : M ≤ R) (hR53 : R < 2 ^ 53) :
    |fl (100 * fl (toDouble M / toDouble R)) - 100 * (M : ℚ) / (R : ℚ)| ≤ (2 : ℚ) ^ (-45 : ℤ) ∧
      |fl (fl (100 * toDouble M) / toDouble R) - 100 * (M : ℚ) / (R : ℚ)|
        ≤ (2 : ℚ) ^ (-45 : ℤ) := by
  rw [toDouble_eq M (by omega), toDouble_eq R hR53]
  have hRq : (0 : ℚ) < (R : ℚ) := by exact_mod_cast hR
  have hMq : (0 : ℚ) ≤ (M : ℚ) := Nat.cast_nonneg M
  have hMRq : (M : ℚ) ≤ (R : ℚ) := by exact_mod_cast hMR
  have hd0 : 0 ≤ (M : ℚ) / (R : ℚ) := div_nonneg hMq hRq.le
  have hd1 : (M : ℚ) / (R : ℚ) ≤ 1 := (div_le_one hRq).2 hMRq
  have hu : (2 : ℚ) ^ (-53 : ℤ) = 1 / 9007199254740992 := by norm_num
  have hv : (2 : ℚ) ^ (-45 : ℤ) = 1 / 35184372088832 := by norm_num
  rw [hv]
  constructor
  · have a0 : 0 ≤ fl ((M : ℚ) / (R : ℚ)) := fl_nonneg hd0
    have a1 : fl ((M : ℚ) / (R : ℚ)) ≤ 1 := by
      have := fl_mono hd1
      rwa [fl_one] at this
    have h1 := fl_err ((M : ℚ) / (R : ℚ))
    have h2 := fl_err (100 * fl ((M : ℚ) / (R : ℚ)))
    rw [abs_of_nonneg hd0, hu] at h1
    rw [abs_of_nonneg (by linarith : (0 : ℚ) ≤ 100 * fl ((M : ℚ) / (R : ℚ))), hu] at h2
    have h1' := abs_le.1 h1
    have h2' := abs_le.1 h2
    have e : 100 * (M : ℚ) / (R : ℚ) = 100 * ((M : ℚ) / (R : ℚ)) := by ring
    rw [e, abs_le]
    constructor <;> linarith [h1'.1, h1'.2, h2'.1, h2'.2]
  · have h1 := fl_err (100 * (M : ℚ))
    rw [abs_of_nonneg (by linarith : (0 : ℚ) ≤ 100 * (M : ℚ)), hu] at h1
    have h1' := abs_le.1 h1
    have b0 : 0 ≤ fl (100 * (M : ℚ)) := fl_nonneg (by linarith)
    have c0 : 0 ≤ fl (100 * (M : ℚ)) / (R : ℚ) := div_nonneg b0 hRq.le
    have h2 := fl_err (fl (100 * (M : ℚ)) / (R : ℚ))
    rw [abs_of_nonneg c0, hu] at h2
    have h2' := abs_le.1 h2
    -- the quotient before the last rounding
    have q1 : fl (100 * (M : ℚ)) / (R : ℚ) - 100 * ((M : ℚ) / (R : ℚ))
        = (fl (100 * (M : ℚ)) - 100 * (M : ℚ)) / (R : ℚ) := by
      field_simp
    have q2 : (fl (100 * (M : ℚ)) - 100 * (M : ℚ)) / (R : ℚ)
        ≤ 1 / 9007199254740992 * (100 * ((M : ℚ) / (R : ℚ))) := by
      rw [div_le_iff₀ hRq]
      have : 1 / 9007199254740992 * (100 * ((M : ℚ) / (R : ℚ))) * (R : ℚ)
          = 1 / 9007199254740992 * (100 * (M : ℚ)) := by
        field_simp
        ring
      rw [this]
      exact h1'.2
    have q3 : -(1 / 9007199254740992 * (100 * ((M : ℚ) / (R : ℚ))))
        ≤ (fl (100 * (M : ℚ)) - 100 * (M : ℚ)) / (R : ℚ) := by
      rw [le_div_iff₀ hRq]
      have : -(1 / 9007199254740992 * (100 * ((M : ℚ) / (R : ℚ)))) * (R : ℚ)
          = -(1 / 9007199254740992 * (100 * (M : ℚ))) := by
        field_simp
        ring
      rw [this]
      exact h1'.1
    have e : 100 * (M : ℚ) / (R : ℚ) = 100 * ((M : ℚ) / (R : ℚ)) := by ring
    rw [e, abs_le]
    constructor <;> linarith [h2'.1, h2'.2]

/-! ## The `double` values of the report -/

theorem HQroundD_eq (s : Agg) (i : Nat) (hi : i ≤ HiQCellSize) :
    HQroundD s i ([cumuCnt s 0 (i + 1), cumuCnt s 1 (i + 1)], HQcovDAt s (i + 1))
      = ([cumuCnt s 0 i, cumuCnt s 1 i], HQcovDAt s i) := by
  have hc0 := cumuCnt_succ s 0 i hi
  have hc1 := cumuCnt_succ s 1 i hi
  have hr : List.range HiQParamSize = [0, 1] := rfl
  unfold HiQCellSize at hi
  simp only [HQroundD, hr, List.foldl, HQstepD, addAt, ← hc0, ← hc1, List.getD_cons_zero,
    List.getD_cons_succ, cov_eq_100_iff, cov_eq_95_iff, cov_eq_90_iff]
  by_cases h200 : i = 200
  · subst h200
    simp [HQcovDAt]
  · by_cases h190 : i = 190
    · subst h190
      simp [HQcovDAt]
    · by_cases h180 : i = 180
      · subst h180
        simp [HQcovDAt]
      · have e1 : (i + 1 ≤ 200) ↔ (i ≤ 200) := by omega
        have e2 : (i + 1 ≤ 190) ↔ (i ≤ 190) := by omega
        have e3 : (i + 1 ≤ 180) ↔ (i ≤ 180) := by omega
        simp [HQcovDAt, h200, h190, h180, e1, e2, e3]

theorem HQloopD_eq (s : Agg) (i : Nat) (hi : i ≤ HiQCellSize) :
    HQloopD s i ([cumuCnt s 0 (i + 1), cumuCnt s 1 (i + 1)], HQcovDAt s (i + 1))
      = ([cumuCnt s 0 0, cumuCnt s 1 0], HQcovDAt s 0) := by
  induction i with
  | zero => rw [HQloopD, HQroundD_eq s 0 hi]
  | succ i ih => rw [HQloopD, HQroundD_eq s (i + 1) hi, ih (by omega)]

/-- The array `HQcov` holds the `double` quotients of the coverage counts at the tiles 200, 190
and 180 by `ReadCount`, and the rounded difference `1 - HQcov[3]`. -/
theorem HQcovD_eq (s : Agg) :
    HQcovD s = [fl (toDouble (cumuCnt s 1 200) / toDouble s.ReadCount),
      fl (toDouble (cumuCnt s 1 190) / toDouble s.ReadCount),
      fl (toDouble (cumuCnt s 1 180) / toDouble s.ReadCount),
      fl (toDouble (cumuCnt s 0 180) / toDouble s.ReadCount),
      fl (1 - fl (toDouble (cumuCnt s 0 180) / toDouble s.ReadCount))] := by
  have h := HQloopD_eq s HiQCellSize (Nat.le_refl _)
  rw [cumuCnt_top, cumuCnt_top] at h
  have e : HQcovDAt s (HiQCellSize + 1) = [0, 0, 0, 0, 0] := by
    simp [HQcovDAt, HiQCellSize]
  rw [e] at h
  unfold HQcovD
  rw [h]
  simp [HQcovDAt]

/-- No coverage count exceeds the number of reads. -/
theorem cumuCnt_le_ReadCount (input : List (List Byte)) (s : Agg)
    (h : ProbeFASTQ input = .done s) (k i : Nat) (hk : k < HiQParamSize) :
    cumuCnt s k i ≤ s.ReadCount := by
  obtain ⟨hw, hb, _, _, _⟩ := scan_done_inv input 0 Agg.init s h init_WF init_Balanced
  have hlen := hw.2.2.2.2.2 k hk
  have hsum := hb.2.2.2.2 k hk
  rw [← hsum, ← cumuCnt_zero_eq_sum s k hlen]
  exact cumuCnt_mono s k (Nat.zero_le i)

/-- The quotient of two counts `a ≤ R` in `double` arithmetic lies between 0 and 1. -/
theorem ratio_bounds {a R : Nat} (hR : 0 < R) (h : a ≤ R) :
    0 ≤ toDouble a / toDouble R ∧ toDouble a / toDouble R ≤ 1 :=
  ⟨div_nonneg (toDouble_nonneg a) (toDouble_nonneg R),
    (div_le_one (toDouble_pos hR)).2 (toDouble_mono h)⟩

/-- The quotient by `ReadCount` in `double` arithmetic is monotone in the count. -/
theorem ratio_mono {a b : Nat} (R : Nat) (h : a ≤ b) :
    fl (toDouble a / toDouble R) ≤ fl (toDouble b / toDouble R) :=
  fl_mono (div_le_div_of_nonneg_right (toDouble_mono h) (toDouble_nonneg R))

/-! ## Concrete roundings -/

theorem toDouble_23 : toDouble 23 = 23 := by
  simpa using toDouble_eq 23 (by norm_num)

theorem toDouble_80 : toDouble 80 = 80 := by
  simpa using toDouble_eq 80 (by norm_num)

theorem toDouble_1 : toDouble 1 = 1 := by
  simpa using toDouble_eq 1 (by norm_num)

theorem toDouble_3 : toDouble 3 = 3 := by
  simpa using toDouble_eq 3 (by norm_num)

/-- The `double` quotient `23.0/80.0`. -/
theorem fl_23_80 : fl (23 / 80) = 5179139571476070 / 2 ^ 54 := by
  have h := fl_eval (x := 23 / 80) (-2) 5179139571476070 (by norm_num) (by norm_num)
    (roundEven_eq_of_lt _ (by norm_num) (by norm_num))
  rw [h]
  norm_num

/-- The `double` product `100.0*(23.0/80.0)`, below `28.75`. -/
theorem fl_100_23_80 : fl (100 * (5179139571476070 / 2 ^ 54)) = 8092405580431359 / 2 ^ 48 := by
  have h := fl_eval (x := 100 * (5179139571476070 / 2 ^ 54)) 4 8092405580431359
    (by norm_num) (by norm_num) (roundEven_eq_of_lt _ (by norm_num) (by norm_num))
  rw [h]
  norm_num

/-- The `double` quotient `(100.0*23.0)/80.0` is `28.75`. -/
theorem fl_2300_80 : fl (fl (100 * 23) / 80) = 115 / 4 := by
  have h1 := fl_repr 2300 0 (by norm_num)
  have h2 := fl_repr 115 (-2) (by norm_num)
  have e1 : ((2300 : ℕ) : ℚ) * (2 : ℚ) ^ (0 : ℤ) = 100 * 23 := by norm_num
  have e2 : ((115 : ℕ) : ℚ) * (2 : ℚ) ^ (-2 : ℤ) = 100 * 23 / 80 := by norm_num
  rw [e1] at h1
  rw [e2] at h2
  rw [h1, h2]
  norm_num

/-- The `double` quotient `1.0/3.0`. -/
theorem fl_1_3 : fl (1 / 3) = 6004799503160661 / 2 ^ 54 := by
  have h := fl_eval (x := 1 / 3) (-2) 6004799503160661 (by norm_num) (by norm_num)
    (roundEven_eq_of_lt _ (by norm_num) (by norm_num))
  rw [h]
  norm_num

/-- The `double` difference `1.0 - 1.0/3.0`: a tie, rounded to the even mantissa. -/
theorem fl_1_sub_third : fl (1 - 6004799503160661 / 2 ^ 54) = 6004799503160662 / 2 ^ 53 := by
  have ht := roundEven_tie (q := (1 - 6004799503160661 / 2 ^ 54) * (2 : ℚ) ^ (52 - (-1) : ℤ))
    6004799503160661 (by norm_num)
  have h := fl_eval (x := 1 - 6004799503160661 / 2 ^ 54) (-1) 6004799503160662
    (by norm_num) (by norm_num) (by rw [ht]; decide)
  rw [h]
  norm_num

/-- The `double` difference `1.0 - (1.0 - 1.0/3.0)` is exact. -/
theorem fl_1_sub_two_thirds :
    fl (1 - 6004799503160662 / 2 ^ 53) = 3002399751580330 / 2 ^ 53 := by
  have h := fl_repr 3002399751580330 (-53) (by norm_num)
  have e : ((3002399751580330 : ℕ) : ℚ) * (2 : ℚ) ^ (-53 : ℤ)
      = 1 - 6004799503160662 / 2 ^ 53 := by norm_num
  rw [e] at h
  rw [h]
  norm_num

theorem printf1_low : printf1 (8092405580431359 / 2 ^ 48) = 287 :=
  roundEven_eq_of_lt _ (by norm_num) (by norm_num)

theorem printf1_tie : printf1 (115 / 4) = 288 := by
  have h := roundEven_tie (q := 10 * (115 / 4)) 287 (by norm_num)
  unfold printf1
  rw [h]
  decide

/-! ## Inputs of repeated records -/

theorem done_of_errorLine {o : Outcome} (h : errorLine o = some none) : ∃ s, o = .done s := by
  cases o <;> simp [errorLine] at h ⊢

theorem block_succ (l1 l2 l3 l4 : List Byte) (n : Nat) (rest : List (List Byte)) :
    (List.replicate (n + 1) [l1, l2, l3, l4]).flatten ++ rest
      = l1 :: l2 :: l3 :: l4 :: ((List.replicate n [l1, l2, l3, l4]).flatten ++ rest) := by
  simp [List.replicate_succ]

theorem CleanInput_block (l1 l2 l3 l4 : List Byte) (hs : CleanSeq l2) (hq : CleanQual l4) :
    ∀ (n : Nat) (rest : List (List Byte)), CleanInput rest →
      CleanInput ((List.replicate n [l1, l2, l3, l4]).flatten ++ rest)
  | 0, rest, h => by simpa using h
  | n + 1, rest, h => by
    rw [block_succ, CleanInput]
    exact ⟨hs, hq, CleanInput_block l1 l2 l3 l4 hs hq n rest h⟩

theorem refValidator_block (l1 l2 l3 l4 : List Byte) (h1 : l1.head? = some 64)
    (h3 : l3.head? = some 43) (hlen : (stripNewline l4).length = (stripNewline l2).length) :
    ∀ (n : Nat) (rest : List (List Byte)) (line : Nat),
      refValidator ((List.replicate n [l1, l2, l3, l4]).flatten ++ rest) line
        = refValidator rest (line + 4 * n)
  | 0, rest, line => by simp
  | n + 1, rest, line => by
    rw [block_succ, refValidator, if_pos h1, if_pos h3, if_pos hlen,
      refValidator_block l1 l2 l3 l4 h1 h3 hlen n rest (line + 4)]
    congr 1
    omega

theorem seqLines_block (l1 l2 l3 l4 : List Byte) :
    ∀ (n : Nat) (rest : List (List Byte)),
      seqLines ((List.replicate n [l1, l2, l3, l4]).flatten ++ rest)
        = List.replicate n l2 ++ seqLines rest
  | 0, rest => by simp
  | n + 1, rest => by
    rw [block_succ, seqLines, seqLines_block l1 l2 l3 l4 n rest, List.replicate_succ,
      List.cons_append]

theorem qualLines_block (l1 l2 l3 l4 : List Byte) :
    ∀ (n : Nat) (rest : List (List Byte)),
      qualLines ((List.replicate n [l1, l2, l3, l4]).flatten ++ rest)
        = List.replicate n l4 ++ qualLines rest
  | 0, rest => by simp
  | n + 1, rest => by
    rw [block_succ, qualLines, qualLines_block l1 l2 l3 l4 n rest, List.replicate_succ,
      List.cons_append]

set_option maxRecDepth 100000 in
/-- The scan of the eighty reads runs to the end, with 80 reads counted and 23 of them with all
scores at 20 and above. -/
theorem eightyReads_done :
    ∃ s, ProbeFASTQ eightyReads = .done s ∧ s.ReadCount = 80 ∧ tileCount s 1 200 = 23 ∧
      (MQsum s).getD 2 0 = 23 := by
  have hs : CleanSeq (bytes "A\n") := by decide
  have hqI : CleanQual (bytes "I\n") := by decide
  have hq0 : CleanQual (bytes "!\n") := by decide
  have hclean : CleanInput eightyReads := by
    unfold eightyReads
    apply CleanInput_block _ _ _ _ hs hqI
    have := CleanInput_block (bytes "@r\n") (bytes "A\n") (bytes "+\n") (bytes "!\n") hs hq0
      57 [] (by simp [CleanInput])
    simpa using this
  have hval : refValidator eightyReads 0 = none := by
    unfold eightyReads
    rw [refValidator_block _ _ _ _ (by decide) (by decide) (by decide)]
    have := refValidator_block (bytes "@r\n") (bytes "A\n") (bytes "+\n") (bytes "!\n")
      (by decide) (by decide) (by decide) 57 [] (0 + 4 * 23)
    rw [List.append_nil] at this
    rw [this]
    rfl
  have hseq : seqLines eightyReads = List.replicate 23 (bytes "A\n")
      ++ List.replicate 57 (bytes "A\n") := by
    unfold eightyReads
    rw [seqLines_block]
    have := seqLines_block (bytes "@r\n") (bytes "A\n") (bytes "+\n") (bytes "!\n") 57 []
    rw [List.append_nil] at this
    rw [this]
    simp [seqLines]
  have hqual : qualLines eightyReads = List.replicate 23 (bytes "I\n")
      ++ List.replicate 57 (bytes "!\n") := by
    unfold eightyReads
    rw [qualLines_block]
    have := qualLines_block (bytes "@r\n") (bytes "A\n") (bytes "+\n") (bytes "!\n") 57 []
    rw [List.append_nil] at this
    rw [this]
    simp [qualLines]
  have herr := scan_eq_refValidator eightyReads 0 Agg.init init_WF hclean
  rw [hval] at herr
  obtain ⟨s, hdone⟩ := done_of_errorLine herr
  have hdone' : ProbeFASTQ eightyReads = .done s := hdone
  obtain ⟨_, _, _, hR, _⟩ := scan_done_inv eightyReads 0 Agg.init s hdone init_WF init_Balanced
  obtain ⟨hT, hB⟩ := scan_done_top_tile eightyReads s hdone'
  have hI : decide (20 ≤ minq1 (qualOf (bytes "I\n"))) = true := by decide
  have h0 : decide (20 ≤ minq1 (qualOf (bytes "!\n"))) = false := by decide
  have hcount : (qualLines eightyReads).countP (fun l4 => decide (20 ≤ minq1 (qualOf l4)))
      = 23 := by
    rw [hqual, List.countP_append, List.countP_replicate, List.countP_replicate, hI, h0]
    simp
  refine ⟨s, hdone', ?_, ?_, ?_⟩
  · rw [hR, hseq]
    simp [Agg.init]
  · rw [hT, hcount]
  · rw [MQsum_eq]
    show bandSum s.MinQCount 20 42 = 23
    rw [hB, hcount]

/-! ## The claims -/

/-- C1: for every input that `ProbeFASTQ` scans to the end, the input is a sequence of 4-line
records, and the sum of `AlphabetCount` over all 256 symbols equals `TotalLen`, which is the
sum of the sequence lengths `SeqLen1` of all records. -/
theorem C1_alphabet_sum_eq_TotalLen (input : List (List Byte)) (s : Agg)
    (h : ProbeFASTQ input = .done s) :
    input.length = 4 * (seqLines input).length ∧
      s.AlphabetCount.length = ALPHABET_SIZE ∧ s.AlphabetCount.sum = s.TotalLen ∧
      s.TotalLen = ((seqLines input).map SeqLen1).sum := by
  obtain ⟨hw, hb, hT, _, hL⟩ := scan_done_inv input 0 Agg.init s h init_WF init_Balanced
  refine ⟨hL, hw.1, hb.1, ?_⟩
  rw [hT]
  simp [Agg.init]

set_option maxRecDepth 100000 in
/-- C1 at the end-to-end scenario: the scan runs to the end with 8 bases. -/
theorem C1_witness :
    ProbeFASTQ twoReads = .done (finalAgg twoReads) ∧
      twoReads.length = 4 * (seqLines twoReads).length ∧
      (finalAgg twoReads).AlphabetCount.length = ALPHABET_SIZE ∧
      (finalAgg twoReads).AlphabetCount.sum = (finalAgg twoReads).TotalLen ∧
      (finalAgg twoReads).TotalLen = ((seqLines twoReads).map SeqLen1).sum :=
  ⟨by decide, C1_alphabet_sum_eq_TotalLen twoReads (finalAgg twoReads) (by decide)⟩

/-- C2: for every input that `ProbeFASTQ` scans to the end, the quality characters all decode
to scores in 0..41, bucket `t` of `MinQCount` counts the records whose minimum decoded score
`minq1` is `t`, and that minimum is one of the scores of the record; so each record is counted
in exactly one bucket and the sum of `MinQCount` over 0..41 equals `ReadCount`, the number of
records. -/
theorem C2_minq_sum_eq_ReadCount (input : List (List Byte)) (s : Agg)
    (h : ProbeFASTQ input = .done s) :
    (∀ l4 ∈ qualLines input, (∀ c ∈ qualOf l4, 0 ≤ tmpq c ∧ tmpq c < 42) ∧
        IsMinScore (qualOf l4) (minq1 (qualOf l4))) ∧
      (∀ t : Nat, s.MinQCount.getD t 0
        = (qualLines input).countP (fun l4 => decide (minq1 (qualOf l4) = (t : Int)))) ∧
      s.MinQCount.length = QSCORE_SIZE ∧ s.MinQCount.sum = s.ReadCount ∧
      s.ReadCount = (qualLines input).length := by
  obtain ⟨hw, hb, _, hR, _⟩ := scan_done_inv input 0 Agg.init s h init_WF init_Balanced
  obtain ⟨_, hQ, hL, _⟩ := scan_done_records input 0 Agg.init s h init_WF
  obtain ⟨hM, _, _⟩ := scan_done_hist input 0 Agg.init s h init_WF
  refine ⟨fun l4 hl => ⟨(hQ l4 hl).2.1, (hQ l4 hl).2.2⟩, ?_, hw.2.2.1, hb.2.2.1, ?_⟩
  · intro t
    rw [hM t]
    simp [Agg.init]
  · rw [hR, hL]
    simp [Agg.init]

set_option maxRecDepth 100000 in
/-- C2 at the end-to-end scenario: two reads, one with minimum score 40 and one with 0. -/
theorem C2_witness :
    ProbeFASTQ twoReads = .done (finalAgg twoReads) ∧
      (finalAgg twoReads).MinQCount.getD 40 0 = 1 ∧ (finalAgg twoReads).MinQCount.getD 0 0 = 1 ∧
      (finalAgg twoReads).MinQCount.sum = (finalAgg twoReads).ReadCount :=
  ⟨by decide, by decide, by decide,
    (C2_minq_sum_eq_ReadCount twoReads (finalAgg twoReads) (by decide)).2.2.2.1⟩

/-- C3: for every input that `ProbeFASTQ` scans to the end (its records then all have a
non-empty sequence) and for each of the two thresholds, tile `i` of `HiQPercentCount` counts
the records whose tile number is `i`, every tile number lies in 0..200, so each record is
counted in exactly one tile and the sum of the tile histogram equals `ReadCount`; the running
`cumuCnt` reaches `ReadCount` at tile 0, and with at least one read the coverage fraction
there is 1. -/
theorem C3_tile_sum_eq_ReadCount (input : List (List Byte)) (s : Agg)
    (h : ProbeFASTQ input = .done s) :
    (∀ l2 ∈ seqLines input, 0 < SeqLen1 l2) ∧
      (∀ l4 ∈ qualLines input, tileOf 15 (qualOf l4) ≤ 200 ∧ tileOf 20 (qualOf l4) ≤ 200) ∧
      (∀ i : Nat, tileCount s 0 i
        = (qualLines input).countP (fun l4 => decide (tileOf 15 (qualOf l4) = i))) ∧
      (∀ i : Nat, tileCount s 1 i
        = (qualLines input).countP (fun l4 => decide (tileOf 20 (qualOf l4) = i))) ∧
      (∀ k, k < HiQParamSize →
        (s.HiQPercentCount.getD k []).length = HiQCellSize + 1 ∧
        (s.HiQPercentCount.getD k []).sum = s.ReadCount ∧
        cumuCnt s k 0 = s.ReadCount ∧
        (0 < s.ReadCount → cumuRatio s k 0 = 1)) := by
  obtain ⟨hw, hb, _, hR, _⟩ := scan_done_inv input 0 Agg.init s h init_WF init_Balanced
  obtain ⟨hS, hQ, hL, _⟩ := scan_done_records input 0 Agg.init s h init_WF
  obtain ⟨_, hT0, hT1⟩ := scan_done_hist input 0 Agg.init s h init_WF
  have htile : ∀ T (q : List Byte), q ≠ [] → tileOf T q ≤ 200 := by
    intro T q hq
    have hpos : 0 < q.length := List.length_pos.2 hq
    have hle : hiQCount T q ≤ q.length := List.countP_le_length _
    unfold tileOf HiQCellSize
    rw [Nat.div_le_iff_le_mul_add_pred hpos]
    have := Nat.mul_le_mul_left 200 hle
    rw [Nat.mul_comm q.length 200]
    omega
  refine ⟨?_, ?_, ?_, ?_, ?_⟩
  · intro l2 hl
    obtain ⟨hne, _⟩ := hS l2 hl
    have : seqOf l2 ≠ [] := by
      intro e
      rw [e] at hne
      exact hne (by simp [gcCount, atCount])
    exact List.length_pos.2 this
  · intro l4 hl
    exact ⟨htile 15 _ (hQ l4 hl).1, htile 20 _ (hQ l4 hl).1⟩
  · intro i
    rw [hT0 i]
    simp [tileCount, Agg.init, HiQParamSize]
  · intro i
    rw [hT1 i]
    simp [tileCount, Agg.init, HiQParamSize]
  · intro k hk
    have hlen := hw.2.2.2.2.2 k hk
    have hsum := hb.2.2.2.2 k hk
    have hc : cumuCnt s k 0 = s.ReadCount := by
      rw [cumuCnt_zero_eq_sum s k hlen, hsum]
    refine ⟨hlen, hsum, hc, ?_⟩
    intro hpos
    unfold cumuRatio
    rw [hc]
    have : (s.ReadCount : ℚ) ≠ 0 := by exact_mod_cast (Nat.pos_iff_ne_zero.1 hpos)
    exact div_self this

set_option maxRecDepth 100000 in
/-- C3 at the end-to-end scenario: for threshold 20 one read lies in tile 200, the other in
tile 0. -/
theorem C3_witness :
    ProbeFASTQ twoReads = .done (finalAgg twoReads) ∧
      tileCount (finalAgg twoReads) 1 200 = 1 ∧ tileCount (finalAgg twoReads) 1 0 = 1 ∧
      (finalAgg twoReads).ReadCount = 2 ∧
      (∀ k, k < HiQParamSize →
        ((finalAgg twoReads).HiQPercentCount.getD k []).length = HiQCellSize + 1 ∧
        ((finalAgg twoReads).HiQPercentCount.getD k []).sum = (finalAgg twoReads).ReadCount ∧
        cumuCnt (finalAgg twoReads) k 0 = (finalAgg twoReads).ReadCount ∧
        (0 < (finalAgg twoReads).ReadCount → cumuRatio (finalAgg twoReads) k 0 = 1)) :=
  ⟨by decide, by decide, by decide, by decide,
    (C3_tile_sum_eq_ReadCount twoReads (finalAgg twoReads) (by decide)).2.2.2.2⟩

set_option maxRecDepth 100000 in
/-- C4 as stated fails: in the end-to-end scenario the coverage fraction of threshold 20 is 1/2
at tile 200 and 1 at tile 0, so it increases while the tile index decreases. -/
theorem C4_counterexample :
    ProbeFASTQ twoReads = .done (finalAgg twoReads) ∧ 0 < (finalAgg twoReads).ReadCount ∧
      cumuRatio (finalAgg twoReads) 1 200 = 1 / 2 ∧ cumuRatio (finalAgg twoReads) 1 0 = 1 ∧
      ¬ (cumuRatio (finalAgg twoReads) 1 0 ≤ cumuRatio (finalAgg twoReads) 1 200) := by
  have h200 : cumuCnt (finalAgg twoReads) 1 200 = 1 := by decide
  have h0 : cumuCnt (finalAgg twoReads) 1 0 = 2 := by decide
  have hR : (finalAgg twoReads).ReadCount = 2 := by decide
  have e200 : cumuRatio (finalAgg twoReads) 1 200 = 1 / 2 := by
    unfold cumuRatio; rw [h200, hR]; norm_num
  have e0 : cumuRatio (finalAgg twoReads) 1 0 = 1 := by
    unfold cumuRatio; rw [h0, hR]; norm_num
  refine ⟨by decide, by decide, e200, e0, ?_⟩
  rw [e200, e0]
  norm_num

/-- C4, amended: for the aggregate of every scan that runs to the end with at least one read
and for each threshold, the cumulative-from-the-top coverage fraction lies between 0 and 1 and
is non-decreasing as the tile index decreases: at a lower tile `i` it is at least what it is at
a higher tile `j`. -/
theorem C4_coverage_monotone (input : List (List Byte)) (s : Agg)
    (h : ProbeFASTQ input = .done s) (hR : 0 < s.ReadCount) (k i j : Nat)
    (hk : k < HiQParamSize) (hij : i ≤ j) :
    0 ≤ cumuRatio s k j ∧ cumuRatio s k j ≤ cumuRatio s k i ∧ cumuRatio s k i ≤ 1 := by
  obtain ⟨hw, hb, _, _, _⟩ := scan_done_inv input 0 Agg.init s h init_WF init_Balanced
  have hlen := hw.2.2.2.2.2 k hk
  have hsum := hb.2.2.2.2 k hk
  have htop : cumuCnt s k i ≤ s.ReadCount := by
    rw [← hsum, ← cumuCnt_zero_eq_sum s k hlen]
    exact cumuCnt_mono s k (Nat.zero_le i)
  have hRq : (0 : ℚ) < (s.ReadCount : ℚ) := by exact_mod_cast hR
  unfold cumuRatio
  refine ⟨by positivity, ?_, ?_⟩
  · apply div_le_div_of_nonneg_right _ hRq.le
    exact_mod_cast cumuCnt_mono s k hij
  · rw [div_le_one hRq]
    exact_mod_cast htop

set_option maxRecDepth 100000 in
/-- C4, amended, at the end-to-end scenario for threshold 20 and the tiles 0 and 200. -/
theorem C4_witness :
    ProbeFASTQ twoReads = .done (finalAgg twoReads) ∧
      0 ≤ cumuRatio (finalAgg twoReads) 1 200 ∧
      cumuRatio (finalAgg twoReads) 1 200 ≤ cumuRatio (finalAgg twoReads) 1 0 ∧
      cumuRatio (finalAgg twoReads) 1 0 ≤ 1 :=
  ⟨by decide, C4_coverage_monotone twoReads (finalAgg twoReads) (by decide) (by decide) 1 0 200
    (by decide) (by decide)⟩

set_option maxRecDepth 100000 in
/-- C5 as stated fails: with `ACTG` as third line the scan reports a format error at line 3,
but the aggregate at the failure is not the one after the preceding records (here the initial
one): the read is counted and its four bases are in `TotalLen`, `AlphabetCount`, `MinSeqLen`,
`MaxSeqLen` and `CntGCRead`. -/
theorem C5_counterexample :
    ProbeFASTQ [] = .done Agg.init ∧
      ProbeFASTQ badSeparator = .formatError 3 (failAgg badSeparator) ∧
      failAgg badSeparator ≠ Agg.init ∧
      (failAgg badSeparator).ReadCount = 1 ∧ (failAgg badSeparator).TotalLen = 4 ∧
      (failAgg badSeparator).AlphabetCount.getD 71 0 = 2 ∧
      (failAgg badSeparator).CntGCRead.getD 100 0 = 1 ∧
      (failAgg badSeparator).MinSeqLen = 4 ∧ (failAgg badSeparator).MaxSeqLen = 4 := by
  refine ⟨by decide, by decide, by decide, by decide, by decide, by decide, by decide,
    by decide, by decide⟩

/-- C5, amended: when the records before are valid, the first line of the record starts with
`@`, its sequence has 7-bit characters with at least one of `G`, `C`, `A`, `T`, and its third
line does not start with `+`, the scan fails with a format error citing the 1-based number of
that third line; `QCount`, `MinQCount` and `HiQPercentCount` are as after the preceding
records, while the update by the record's sequence line has already been made: the read is
counted, and its length is in `TotalLen`, `AlphabetCount`, `MinSeqLen` and `MaxSeqLen`, its
GC% in `CntGCRead`. -/
theorem C5_separator_error (pre rest : List (List Byte)) (l1 l2 l3 : List Byte) (s0 : Agg)
    (hpre : ProbeFASTQ pre = .done s0) (h1 : firstByte l1 = 64)
    (h7 : ∀ c ∈ seqOf l2, c.val < 128) (hgc : gcCount (seqOf l2) + atCount (seqOf l2) ≠ 0)
    (h3 : firstByte l3 ≠ 43) :
    ∃ s1, seqUpdate s0 (seqOf l2) = some s1 ∧
      ProbeFASTQ (pre ++ l1 :: l2 :: l3 :: rest) = .formatError (pre.length + 3) s1 ∧
      s1.QCount = s0.QCount ∧ s1.MinQCount = s0.MinQCount ∧
      s1.HiQPercentCount = s0.HiQPercentCount ∧
      s1.ReadCount = s0.ReadCount + 1 ∧ s1.TotalLen = s0.TotalLen + SeqLen1 l2 ∧
      s1.AlphabetCount.sum = s0.AlphabetCount.sum + SeqLen1 l2 ∧
      s1.CntGCRead.sum = s0.CntGCRead.sum + 1 ∧
      s1.MinSeqLen = (if s0.MinSeqLen < SeqLen1 l2 then s0.MinSeqLen else SeqLen1 l2) ∧
      s1.MaxSeqLen = (if s0.MaxSeqLen > SeqLen1 l2 then s0.MaxSeqLen else SeqLen1 l2) := by
  obtain ⟨hw, _, _, _, _⟩ := scan_done_inv pre 0 Agg.init s0 hpre init_WF init_Balanced
  obtain ⟨s1, hs1⟩ := seqUpdate_defined s0 (seqOf l2) hw.1 hw.2.2.2.1 h7 hgc
  obtain ⟨_, _, aT, aR, aMin, aMax, _, aAs, _, aGlt, aG, aQ, aMq, aH⟩ := seqUpdate_eq_some hs1
  have hs1' : seqUpdate s0 (strtokNL (cstr l2)) = some s1 := hs1
  refine ⟨s1, hs1, ?_, aQ, aMq, aH, aR, aT, aAs, ?_, aMin, aMax⟩
  · unfold ProbeFASTQ
    rw [scan_append pre _ 0 Agg.init s0 hpre, Nat.zero_add]
    cases rest with
    | nil =>
      rw [scan]
      simp only [h1, ne_eq, not_true_eq_false, if_false, hs1', h3, not_false_eq_true, if_true]
    | cons l4 rest =>
      rw [scan]
      simp only [h1, ne_eq, not_true_eq_false, if_false, hs1', h3, not_false_eq_true, if_true]
  · rw [aG, bump_sum _ _ aGlt]

set_option maxRecDepth 100000 in
/-- C5, amended, at the format-violation scenario `@r1`, `GGCC`, `ACTG`, `IIII`. -/
theorem C5_witness :
    ∃ s1, seqUpdate Agg.init (seqOf (bytes "GGCC\n")) = some s1 ∧
      ProbeFASTQ ([] ++ bytes "@r1\n" :: bytes "GGCC\n" :: bytes "ACTG\n" :: [bytes "IIII\n"])
        = .formatError (([] : List (List Byte)).length + 3) s1 ∧
      s1.QCount = Agg.init.QCount ∧ s1.MinQCount = Agg.init.MinQCount ∧
      s1.HiQPercentCount = Agg.init.HiQPercentCount ∧
      s1.ReadCount = Agg.init.ReadCount + 1 ∧
      s1.TotalLen = Agg.init.TotalLen + SeqLen1 (bytes "GGCC\n") ∧
      s1.AlphabetCount.sum = Agg.init.AlphabetCount.sum + SeqLen1 (bytes "GGCC\n") ∧
      s1.CntGCRead.sum = Agg.init.CntGCRead.sum + 1 ∧
      s1.MinSeqLen = (if Agg.init.MinSeqLen < SeqLen1 (bytes "GGCC\n") then Agg.init.MinSeqLen
        else SeqLen1 (bytes "GGCC\n")) ∧
      s1.MaxSeqLen = (if Agg.init.MaxSeqLen > SeqLen1 (bytes "GGCC\n") then Agg.init.MaxSeqLen
        else SeqLen1 (bytes "GGCC\n")) :=
  C5_separator_error [] [bytes "IIII\n"] (bytes "@r1\n") (bytes "GGCC\n") (bytes "ACTG\n")
    Agg.init (by decide) (by decide) (by decide) (by decide) (by decide)

set_option maxRecDepth 100000 in
/-- C6 as stated fails: sequence `ACGT` with quality string `II!` gives the length-mismatch
error at line 4 with `QCount` untouched, but `AlphabetCount` is not as after the preceding
records (here the initial one): the four bases of the sequence are already counted. -/
theorem C6_counterexample :
    ProbeFASTQ [] = .done Agg.init ∧
      ProbeFASTQ badLength = .lengthError 4 (failAgg badLength) ∧
      (failAgg badLength).QCount = Agg.init.QCount ∧
      (failAgg badLength).AlphabetCount ≠ Agg.init.AlphabetCount ∧
      (failAgg badLength).AlphabetCount.getD 65 0 = 1 ∧
      (failAgg badLength).AlphabetCount.sum = 4 := by
  refine ⟨by decide, by decide, by decide, by decide, by decide, by decide⟩

/-- C6, amended: when the records before are valid, the first line of the record starts with
`@` and the third with `+`, the sequence and quality lines are lines of text with at least one
character before the newline, the sequence has 7-bit characters with at least one of `G`, `C`,
`A`, `T`, and the quality string length differs from the sequence length, the scan fails with
the length-mismatch error citing the quality line; the failure comes before any update by the
quality string, so `QCount`, `MinQCount` and `HiQPercentCount` are as after the preceding
records, but after the update by the sequence: every base is counted in `AlphabetCount`. -/
theorem C6_length_error (pre rest : List (List Byte)) (l1 l2 l3 l4 : List Byte) (s0 : Agg)
    (hpre : ProbeFASTQ pre = .done s0) (h1 : firstByte l1 = 64) (ht2 : IsTextLine l2)
    (h7 : ∀ c ∈ stripNewline l2, c.val < 128)
    (hgc : gcCount (stripNewline l2) + atCount (stripNewline l2) ≠ 0)
    (h3 : firstByte l3 = 43) (ht4 : IsTextLine l4)
    (hlen : (stripNewline l4).length ≠ (stripNewline l2).length) :
    ∃ s1, seqUpdate s0 (stripNewline l2) = some s1 ∧
      ProbeFASTQ (pre ++ l1 :: l2 :: l3 :: l4 :: rest) = .lengthError (pre.length + 4) s1 ∧
      s1.QCount = s0.QCount ∧ s1.MinQCount = s0.MinQCount ∧
      s1.HiQPercentCount = s0.HiQPercentCount ∧
      (∀ k : Byte, s1.AlphabetCount.getD k.val 0
        = s0.AlphabetCount.getD k.val 0 + (stripNewline l2).count k) ∧
      s1.AlphabetCount.sum = s0.AlphabetCount.sum + (stripNewline l2).length ∧
      s1.AlphabetCount ≠ s0.AlphabetCount := by
  obtain ⟨hw, _, _, _, _⟩ := scan_done_inv pre 0 Agg.init s0 hpre init_WF init_Balanced
  obtain ⟨s1, hs1⟩ := seqUpdate_defined s0 (stripNewline l2) hw.1 hw.2.2.2.1 h7 hgc
  obtain ⟨_, _, _, _, _, _, _, aAs, aAk, _, _, aQ, aMq, aH⟩ := seqUpdate_eq_some hs1
  have e2 := strtok_of_textLine ht2
  have e4 := strtok_of_textLine ht4
  refine ⟨s1, hs1, ?_, aQ, aMq, aH, aAk, aAs, ?_⟩
  · unfold ProbeFASTQ
    rw [scan_append pre _ 0 Agg.init s0 hpre, Nat.zero_add, scan]
    simp only [h1, ne_eq, not_true_eq_false, if_false, e2, hs1, h3, e4, hlen, not_false_eq_true,
      if_true]
  · intro e
    rw [e] at aAs
    have := List.length_pos.2 ht2.1
    omega

set_option maxRecDepth 100000 in
/-- C6, amended, at the length-mismatch scenario `@r1`, `ACGT`, `+`, `II!`. -/
theorem C6_witness :
    ∃ s1, seqUpdate Agg.init (stripNewline (bytes "ACGT\n")) = some s1 ∧
      ProbeFASTQ ([] ++ bytes "@r1\n" :: bytes "ACGT\n" :: bytes "+\n" :: bytes "II!\n" :: [])
        = .lengthError (([] : List (List Byte)).length + 4) s1 ∧
      s1.QCount = Agg.init.QCount ∧ s1.MinQCount = Agg.init.MinQCount ∧
      s1.HiQPercentCount = Agg.init.HiQPercentCount ∧
      (∀ k : Byte, s1.AlphabetCount.getD k.val 0
        = Agg.init.AlphabetCount.getD k.val 0 + (stripNewline (bytes "ACGT\n")).count k) ∧
      s1.AlphabetCount.sum
        = Agg.init.AlphabetCount.sum + (stripNewline (bytes "ACGT\n")).length ∧
      s1.AlphabetCount ≠ Agg.init.AlphabetCount :=
  C6_length_error [] [] (bytes "@r1\n") (bytes "ACGT\n") (bytes "+\n") (bytes "II!\n")
    Agg.init (by decide) (by decide) (by decide) (by decide) (by decide) (by decide)
    (by decide) (by decide)

set_option maxRecDepth 100000 in
/-- C7 as stated fails. For a record with sequence `A` and an empty quality line the reference
validator reports line 4 (stripped lengths 0 and 1), but `strtok` leaves the lone newline in
the buffer, so `QLen1 == SeqLen1 == 1`, the length check passes and the scan does not fail at
line 4: it goes on to index `QCount` with the score `-23` of the newline. For a record whose
sequence line is `A`, NUL, `C` and whose quality line is `I`, the validator reports line 4
(stripped lengths 3 and 1), but the C string ends at the NUL, so `SeqLen1 == QLen1 == 1` and
the scan runs to the end. -/
theorem C7_counterexample :
    (refValidator emptyQuality 0 = some 4 ∧
      QLen1 (bytes "\n") = 1 ∧ SeqLen1 (bytes "A\n") = 1 ∧ tmpq 10 = -23 ∧
      ProbeFASTQ emptyQuality = .undefined ∧
      errorLine (ProbeFASTQ emptyQuality) ≠ some (refValidator emptyQuality 0)) ∧
    (refValidator nulSequence 0 = some 4 ∧
      ProbeFASTQ nulSequence = .done (finalAgg nulSequence) ∧
      (finalAgg nulSequence).ReadCount = 1 ∧ (finalAgg nulSequence).TotalLen = 1 ∧
      errorLine (ProbeFASTQ nulSequence) ≠ some (refValidator nulSequence 0)) := by
  refine ⟨⟨by decide, by decide, by decide, by decide, by decide, by decide⟩,
    ⟨by decide, by decide, by decide, by decide, by decide⟩⟩

/-- C7, amended: on every input whose sequence lines are lines of text of 7-bit characters with
at least one of `G`, `C`, `A`, `T` and whose quality lines are lines of text that decode to
scores in 0..41 (a line of text has no NUL byte and at least one character before its
newline), the scan outcome equals the reference validator: the scan fails exactly at the line
number the validator gives, and runs to the end when the validator gives none. -/
theorem C7_scan_eq_refValidator (input : List (List Byte)) (hc : CleanInput input) :
    errorLine (ProbeFASTQ input) = some (refValidator input 0) ∧
      (refValidator input 0 = none → ∃ s, ProbeFASTQ input = .done s) ∧
      (∀ L, refValidator input 0 = some L →
        ∃ s, ProbeFASTQ input = .formatError L s ∨ ProbeFASTQ input = .lengthError L s) := by
  have h := scan_eq_refValidator input 0 Agg.init init_WF hc
  refine ⟨h, ?_, ?_⟩
  · intro hn
    rw [hn] at h
    unfold ProbeFASTQ
    cases hs : scan input 0 Agg.init with
    | done s => exact ⟨s, rfl⟩
    | formatError L s => rw [hs] at h; simp [errorLine] at h
    | lengthError L s => rw [hs] at h; simp [errorLine] at h
    | undefined => rw [hs] at h; simp [errorLine] at h
  · intro L hL
    rw [hL] at h
    unfold ProbeFASTQ
    cases hs : scan input 0 Agg.init with
    | done s => rw [hs] at h; simp [errorLine] at h
    | formatError L' s =>
      rw [hs] at h
      simp only [errorLine, Option.some.injEq] at h
      subst h
      exact ⟨s, Or.inl rfl⟩
    | lengthError L' s =>
      rw [hs] at h
      simp only [errorLine, Option.some.injEq] at h
      subst h
      exact ⟨s, Or.inr rfl⟩
    | undefined => rw [hs] at h; simp [errorLine] at h

set_option maxRecDepth 100000 in
/-- C7, amended, at the length-mismatch scenario: the input is clean, the validator gives
line 4 and the scan fails there. -/
theorem C7_witness :
    CleanInput badLength ∧ refValidator badLength 0 = some 4 ∧
      errorLine (ProbeFASTQ badLength) = some (refValidator badLength 0) :=
  ⟨⟨by decide, by decide, trivial⟩, by decide,
    (C7_scan_eq_refValidator badLength ⟨by decide, by decide, trivial⟩).1⟩

/-- C8: for every non-empty quality string `q` and every threshold `T`, the tile number
`HiqpTileNo` is defined and is `floor(200 * h / n)`, with `n` the read length and `h` the
number of bases with decoded score at least `T`; it lies in 0..200 and is 200 exactly when
every base has score at least `T`. Every defined update by the record increments, for the
thresholds 15 and 20, exactly the tile of that number, and the update is defined whenever the
scores lie in 0..41. -/
theorem C8_tile_index (T : Int) (q : List Byte) (hq : q ≠ []) :
    HiqpTileNo (hiQCount T q) q.length = some ((tileOf T q : Nat) : Int) ∧
      tileOf T q = ⌊((HiQCellSize * hiQCount T q : Nat) : ℚ) / (q.length : ℚ)⌋₊ ∧
      tileOf T q ≤ 200 ∧ (tileOf T q = 200 ↔ ∀ c ∈ q, tmpq c ≥ T) ∧
      (∀ s s2 : Agg, s.WF → qualUpdate s q = some s2 →
        s2.HiQPercentCount.getD 0 [] = bump (s.HiQPercentCount.getD 0 []) (tileOf 15 q) ∧
        s2.HiQPercentCount.getD 1 [] = bump (s.HiQPercentCount.getD 1 []) (tileOf 20 q) ∧
        ∀ k, 2 ≤ k → s2.HiQPercentCount.getD k [] = s.HiQPercentCount.getD k []) ∧
      ((∀ c ∈ q, 0 ≤ tmpq c ∧ tmpq c < 42) → ∀ s : Agg, s.WF → ∃ s2, qualUpdate s q = some s2) := by
  have hpos : 0 < q.length := List.length_pos.2 hq
  have hle : hiQCount T q ≤ q.length := List.countP_le_length _
  refine ⟨?_, ?_, ?_, ?_, ?_, ?_⟩
  · unfold HiqpTileNo tileOf
    rw [if_neg (by omega)]
  · unfold tileOf
    rw [Nat.floor_div_eq_div]
  · unfold tileOf HiQCellSize
    rw [Nat.div_le_iff_le_mul_add_pred hpos]
    have := Nat.mul_le_mul_left 200 hle
    rw [Nat.mul_comm q.length 200]
    omega
  · have h1 : tileOf T q = 200 ↔ hiQCount T q = q.length := by
      unfold tileOf HiQCellSize
      constructor
      · intro h
        have h2 : 200 ≤ 200 * hiQCount T q / q.length := by omega
        rw [Nat.le_div_iff_mul_le hpos] at h2
        omega
      · intro h
        rw [h]
        exact Nat.mul_div_cancel _ hpos
    rw [h1]
    unfold hiQCount
    rw [List.countP_eq_length]
    simp
  · intro s s2 hw h
    obtain ⟨_, _, _, _, _, _, _, ⟨_, t0⟩, ⟨_, t1⟩, hk, _⟩ := qualUpdate_eq_some hw.2.1 h
    exact ⟨t0, t1, hk⟩
  · intro hr s hw
    exact qualUpdate_defined s q hw hq hr

set_option maxRecDepth 100000 in
/-- C8 at the boundary scenario: a quality string of `@` only (score 31) lands in tile 200 for
threshold 20. -/
theorem C8_witness :
    tmpq 64 = 31 ∧ tileOf 20 (bytes "@@@@") = 200 ∧
      HiqpTileNo (hiQCount 20 (bytes "@@@@")) (bytes "@@@@").length = some 200 ∧
      (tileOf 20 (bytes "@@@@") = 200 ↔ ∀ c ∈ bytes "@@@@", tmpq c ≥ 20) := by
  have h := C8_tile_index 20 (bytes "@@@@") (by decide)
  have e : tileOf 20 (bytes "@@@@") = 200 := by decide
  refine ⟨by decide, e, ?_, h.2.2.2.1⟩
  rw [h.1, e]
  rfl

/-- C9: for every sequence with at least one of `G`, `C`, `A`, `T`, the value `GCvalue` is
defined and is `100*GC/(GC+AT)` rounded to the nearest integer, halves away from zero, where
`GC` counts `G` and `C` and `AT` counts `A` and `T`; it lies in 0..100. Every defined update by
the record increments exactly that bucket of `CntGCRead`, and the update is defined whenever
the sequence has 7-bit characters. -/
theorem C9_gc_bucket (seq : List Byte) (hgc : gcCount seq + atCount seq ≠ 0) :
    GCvalue (gcCount seq) (atCount seq) = some ((gcIndex seq : Nat) : Int) ∧
      ((gcIndex seq : Nat) : Int)
        = round ((100 * gcCount seq : ℚ) / ((gcCount seq : ℚ) + (atCount seq : ℚ))) ∧
      gcIndex seq ≤ 100 ∧
      (∀ s s1 : Agg, seqUpdate s seq = some s1 →
        gcIndex seq < s.CntGCRead.length ∧ s1.CntGCRead = bump s.CntGCRead (gcIndex seq) ∧
        ∀ k, s1.CntGCRead.getD k 0 = s.CntGCRead.getD k 0 + (if k = gcIndex seq then 1 else 0)) ∧
      ((∀ c ∈ seq, c.val < 128) → ∀ s : Agg, s.WF → ∃ s1, seqUpdate s seq = some s1) := by
  have hv := GCvalue_of_pos _ _ hgc
  have hb := (GCvalue_eq_some hv).2.2
  refine ⟨hv, ?_, hb, ?_, ?_⟩
  · rw [round_eq]
    have hn : ((gcCount seq : ℚ) + (atCount seq : ℚ)) ≠ 0 := by
      have : (0 : ℚ) < ((gcCount seq + atCount seq : Nat) : ℚ) := by
        exact_mod_cast Nat.pos_of_ne_zero hgc
      push_cast at this
      exact ne_of_gt this
    have e : (100 * (gcCount seq : ℚ)) / ((gcCount seq : ℚ) + (atCount seq : ℚ)) + 1 / 2
        = ((200 * gcCount seq + (gcCount seq + atCount seq) : Nat) : ℚ)
          / ((2 * (gcCount seq + atCount seq) : Nat) : ℚ) := by
      push_cast
      field_simp
      ring
    rw [e, Rat.floor_natCast_div_natCast]
    rfl
  · intro s s1 h
    obtain ⟨_, _, _, _, _, _, _, _, _, hlt, hG, _⟩ := seqUpdate_eq_some h
    refine ⟨hlt, hG, ?_⟩
    intro k
    rw [hG]
    exact bump_getD _ _ _ hlt
  · intro h7 s hw
    exact seqUpdate_defined s seq hw.1 hw.2.2.2.1 h7 hgc

set_option maxRecDepth 100000 in
/-- C9 at the end-to-end scenario: `GGCC` increments bucket 100 and `ATAT` bucket 0. -/
theorem C9_witness :
    GCvalue (gcCount (bytes "GGCC")) (atCount (bytes "GGCC")) = some 100 ∧
      GCvalue (gcCount (bytes "ATAT")) (atCount (bytes "ATAT")) = some 0 ∧
      (∀ s s1 : Agg, seqUpdate s (bytes "GGCC") = some s1 →
        s1.CntGCRead = bump s.CntGCRead 100) ∧
      (∀ s s1 : Agg, seqUpdate s (bytes "ATAT") = some s1 →
        s1.CntGCRead = bump s.CntGCRead 0) ∧
      (finalAgg twoReads).CntGCRead.getD 100 0 = 1 ∧
      (finalAgg twoReads).CntGCRead.getD 0 0 = 1 := by
  have h1 := C9_gc_bucket (bytes "GGCC") (by decide)
  have h2 := C9_gc_bucket (bytes "ATAT") (by decide)
  have e1 : gcIndex (bytes "GGCC") = 100 := by decide
  have e2 : gcIndex (bytes "ATAT") = 0 := by decide
  rw [e1] at h1
  rw [e2] at h2
  exact ⟨h1.1, h2.1, fun s s1 h => (h1.2.2.2.1 s s1 h).2.1,
    fun s s1 h => (h2.2.2.2.1 s s1 h).2.1, by decide, by decide⟩

set_option maxRecDepth 100000 in
/-- C12 fails on the code. For the all-`N` read `GC + AT == 0`: the GC% step divides `0.0` by
`0.0` and converts the NaN to `char`, so the update by the sequence is undefined and the scan
does not go on to the next record with a defined state. For a quality string of length zero
the tile step divides `0.0` by `0.0` and converts the NaN to `int`. -/
theorem C12_degenerate_record_undefined :
    gcCount (seqOf (bytes "NNNN\n")) + atCount (seqOf (bytes "NNNN\n")) = 0 ∧
      GCvalue 0 0 = none ∧
      seqUpdate Agg.init (seqOf (bytes "NNNN\n")) = none ∧
      ProbeFASTQ allN = .undefined ∧
      QLen1 [0, 10] = 0 ∧ HiqpTileNo 0 0 = none ∧ qualUpdate Agg.init [] = none ∧
      ProbeFASTQ zeroLength = .undefined := by
  refine ⟨by decide, by decide, by decide, by decide, by decide, by decide, by decide,
    by decide⟩

set_option maxRecDepth 100000 in
/-- C13 fails on the code at the empty line. For a line that is only a newline `strtok` finds
no token and leaves the buffer as it is: the newline is not stripped, `SeqLen1` and `QLen1` are
1 instead of 0, the loop over the sequence counts the newline in `AlphabetCount[10]`, and the
newline of an empty quality line is decoded as the score `-23`. A line with a character before
the newline is stripped as the claim says. -/
theorem C13_empty_line_not_stripped :
    stripNewline (bytes "\n") = [] ∧ seqOf (bytes "\n") = [10] ∧
      SeqLen1 (bytes "\n") = 1 ∧ QLen1 (bytes "\n") = 1 ∧
      seqLoop (seqOf (bytes "\n")) (Agg.init.AlphabetCount, 0, 0)
        = some (bump Agg.init.AlphabetCount 10, 0, 0) ∧
      tmpq 10 = -23 ∧ ProbeFASTQ emptyRecord = .undefined ∧
      seqOf (bytes "ACGT\n") = bytes "ACGT" ∧ SeqLen1 (bytes "ACGT\n") = 4 := by
  refine ⟨by decide, by decide, by decide, by decide, by decide, by decide, by decide,
    by decide, by decide⟩

/-- C14 as stated fails: for 80 reads of which 23 have all scores at 20 and above the top
tile of threshold 20 and `MQsum[2]` both hold 23, but the reported percentage `100.0*HQcov[0]`
is `8092405580431359/2^48`, below `28.75`, and the reported percentage
`100.0*MQsum[2]/ReadCount` is `28.75`: the two values differ, and they are printed as `28.7`
and `28.8`. -/
theorem C14_counterexample :
    ∃ s, ProbeFASTQ eightyReads = .done s ∧ s.ReadCount = 80 ∧ tileCount s 1 200 = 23 ∧
      (MQsum s).getD 2 0 = 23 ∧
      HQpercent s = 8092405580431359 / 2 ^ 48 ∧ MQpercent s 2 = 115 / 4 ∧
      HQpercent s ≠ MQpercent s 2 ∧
      printf1 (HQpercent s) = 287 ∧ printf1 (MQpercent s 2) = 288 := by
  obtain ⟨s, hdone, hR, hT, hM⟩ := eightyReads_done
  have hH : HQpercent s = 8092405580431359 / 2 ^ 48 := by
    unfold HQpercent
    rw [HQcovD_eq, List.getD_cons_zero, cumuCnt_200, hT, hR, toDouble_23, toDouble_80, fl_23_80,
      fl_100_23_80]
  have hP : MQpercent s 2 = 115 / 4 := by
    unfold MQpercent
    rw [hM, hR, toDouble_23, toDouble_80, fl_2300_80]
  refine ⟨s, hdone, hR, hT, hM, hH, hP, ?_, ?_, ?_⟩
  · rw [hH, hP]
    norm_num
  · rw [hH]
    exact printf1_low
  · rw [hP]
    exact printf1_tie

/-- C14, amended: for every input that `ProbeFASTQ` scans to the end (its records are then
non-empty with all scores in 0..41), the number of reads in the top tile 200 of the tile
histogram of threshold 20 equals `MQsum[2]`, the number of reads whose minimum score is at
least 20; hence `HQcov[0]` is the `double` quotient of `MQsum[2]` by `ReadCount`. With at least
one and fewer than `2^53` reads the two reported percentages, `100.0*HQcov[0]` and
`100.0*MQsum[2]/ReadCount`, are each within `2^-45` of the exact percentage
`100*MQsum[2]/ReadCount`, and printed with one decimal they differ by at most one tenth. -/
theorem C14_top_tile_eq_MQsum (input : List (List Byte)) (s : Agg)
    (h : ProbeFASTQ input = .done s) :
    (MQsum s).getD 2 0 = bandSum s.MinQCount 20 42 ∧
      (MQsum s).getD 2 0
        = (qualLines input).countP (fun l4 => decide (20 ≤ minq1 (qualOf l4))) ∧
      tileCount s 1 200 = (MQsum s).getD 2 0 ∧
      (HQcovD s).getD 0 0 = fl (toDouble ((MQsum s).getD 2 0) / toDouble s.ReadCount) ∧
      (0 < s.ReadCount → s.ReadCount < 2 ^ 53 →
        |HQpercent s - 100 * ((MQsum s).getD 2 0 : ℚ) / (s.ReadCount : ℚ)|
            ≤ (2 : ℚ) ^ (-45 : ℤ) ∧
          |MQpercent s 2 - 100 * ((MQsum s).getD 2 0 : ℚ) / (s.ReadCount : ℚ)|
            ≤ (2 : ℚ) ^ (-45 : ℤ) ∧
          |printf1 (HQpercent s) - printf1 (MQpercent s 2)| ≤ 1) := by
  obtain ⟨hT, hB⟩ := scan_done_top_tile input s h
  have hM : (MQsum s).getD 2 0 = bandSum s.MinQCount 20 42 := by
    rw [MQsum_eq]
    rfl
  have hTM : tileCount s 1 200 = (MQsum s).getD 2 0 := by rw [hM, hB, hT]
  have hH : (HQcovD s).getD 0 0
      = fl (toDouble ((MQsum s).getD 2 0) / toDouble s.ReadCount) := by
    rw [HQcovD_eq, List.getD_cons_zero, cumuCnt_200, hTM]
  refine ⟨hM, by rw [hM, hB], hTM, hH, ?_⟩
  intro hR hR53
  have hle : (MQsum s).getD 2 0 ≤ s.ReadCount := by
    rw [← hTM, ← cumuCnt_200]
    exact cumuCnt_le_ReadCount input s h 1 200 (by decide)
  obtain ⟨p1, p2⟩ := percent_close ((MQsum s).getD 2 0) s.ReadCount hR hle hR53
  have e1 : HQpercent s
      = fl (100 * fl (toDouble ((MQsum s).getD 2 0) / toDouble s.ReadCount)) := by
    unfold HQpercent
    rw [hH]
  have e2 : MQpercent s 2
      = fl (fl (100 * toDouble ((MQsum s).getD 2 0)) / toDouble s.ReadCount) := rfl
  rw [← e1] at p1
  rw [← e2] at p2
  refine ⟨p1, p2, ?_⟩
  apply roundEven_close
  have a := abs_le.1 p1
  have b := abs_le.1 p2
  have hv : (2 : ℚ) ^ (-45 : ℤ) = 1 / 35184372088832 := by norm_num
  rw [hv] at a b
  rw [abs_lt]
  constructor <;> linarith [a.1, a.2, b.1, b.2]

set_option maxRecDepth 100000 in
/-- C14, amended, at the end-to-end scenario: one of the two reads has all bases at Q20 and
above, and both reported percentages are within `2^-45` of 50. -/
theorem C14_witness :
    ProbeFASTQ twoReads = .done (finalAgg twoReads) ∧
      tileCount (finalAgg twoReads) 1 200 = 1 ∧ MQsum (finalAgg twoReads) = [1, 1, 1] ∧
      (finalAgg twoReads).ReadCount = 2 ∧
      tileCount (finalAgg twoReads) 1 200 = (MQsum (finalAgg twoReads)).getD 2 0 ∧
      |HQpercent (finalAgg twoReads) - 100 * ((MQsum (finalAgg twoReads)).getD 2 0 : ℚ)
          / ((finalAgg twoReads).ReadCount : ℚ)| ≤ (2 : ℚ) ^ (-45 : ℤ) ∧
      |MQpercent (finalAgg twoReads) 2 - 100 * ((MQsum (finalAgg twoReads)).getD 2 0 : ℚ)
          / ((finalAgg twoReads).ReadCount : ℚ)| ≤ (2 : ℚ) ^ (-45 : ℤ) ∧
      |printf1 (HQpercent (finalAgg twoReads)) - printf1 (MQpercent (finalAgg twoReads) 2)|
        ≤ 1 :=
  ⟨by decide, by decide, by decide, by decide,
    (C14_top_tile_eq_MQsum twoReads (finalAgg twoReads) (by decide)).2.2.1,
    (C14_top_tile_eq_MQsum twoReads (finalAgg twoReads) (by decide)).2.2.2.2
      (by decide) (by decide)⟩

set_option maxRecDepth 100000 in
/-- C15 as stated fails: for one read of score 40 and two reads of score 0 the medium value
`1.0-HQcov[4]-HQcov[0]` of the pie chart is `-2^-54`, a negative number; for one read of score
40 and two reads of score 15 the three values add up to `1 + 2^-54`. -/
theorem C15_counterexample :
    (ProbeFASTQ threeReads = .done (finalAgg threeReads) ∧
      pieChart (finalAgg threeReads)
        = [6004799503160662 / 2 ^ 53, -(1 / 2 ^ 54), 6004799503160661 / 2 ^ 54] ∧
      ¬ (∀ v ∈ pieChart (finalAgg threeReads), 0 ≤ v)) ∧
    (ProbeFASTQ threeReadsQ15 = .done (finalAgg threeReadsQ15) ∧
      pieChart (finalAgg threeReadsQ15)
        = [0, 6004799503160662 / 2 ^ 53, 6004799503160661 / 2 ^ 54] ∧
      (pieChart (finalAgg threeReadsQ15)).sum = 1 + 1 / 2 ^ 54 ∧
      (pieChart (finalAgg threeReadsQ15)).sum ≠ 1) := by
  have a1 : cumuCnt (finalAgg threeReads) 1 200 = 1 := by decide
  have a2 : cumuCnt (finalAgg threeReads) 0 180 = 1 := by decide
  have a3 : (finalAgg threeReads).ReadCount = 3 := by decide
  have b1 : cumuCnt (finalAgg threeReadsQ15) 1 200 = 1 := by decide
  have b2 : cumuCnt (finalAgg threeReadsQ15) 0 180 = 3 := by decide
  have b3 : (finalAgg threeReadsQ15).ReadCount = 3 := by decide
  have t1 : toDouble 1 / toDouble 3 = 1 / 3 := by rw [toDouble_1, toDouble_3]
  have t3 : toDouble 3 / toDouble 3 = 1 := by
    rw [toDouble_3]
    norm_num
  have m1 : fl (3002399751580330 / 2 ^ 53 - 6004799503160661 / 2 ^ 54) = -(1 / 2 ^ 54) := by
    have e : (3002399751580330 / 2 ^ 53 - 6004799503160661 / 2 ^ 54 : ℚ)
        = -(2 : ℚ) ^ (-54 : ℤ) := by norm_num
    rw [e, fl_neg_tiny]
    norm_num
  have p1 : pieChart (finalAgg threeReads)
      = [6004799503160662 / 2 ^ 53, -(1 / 2 ^ 54), 6004799503160661 / 2 ^ 54] := by
    unfold pieChart
    rw [HQcovD_eq, a1, a2, a3, t1, fl_1_3]
    simp only [List.getD_cons_zero, List.getD_cons_succ]
    rw [fl_1_sub_third, fl_1_sub_two_thirds, m1]
  have p2 : pieChart (finalAgg threeReadsQ15)
      = [0, 6004799503160662 / 2 ^ 53, 6004799503160661 / 2 ^ 54] := by
    unfold pieChart
    rw [HQcovD_eq, b1, b2, b3, t1, t3, fl_1_3]
    simp only [List.getD_cons_zero, List.getD_cons_succ]
    rw [fl_one, sub_self, fl_zero, sub_zero, fl_one, fl_1_sub_third]
  refine ⟨⟨by decide, p1, ?_⟩, ⟨by decide, p2, ?_, ?_⟩⟩
  · intro hall
    have := hall (-(1 / 2 ^ 54)) (by rw [p1]; simp)
    norm_num at this
  · rw [p2]
    norm_num
  · rw [p2]
    norm_num

/-- C15, amended: for every quality string the tile of threshold 15 is at least the
tile of threshold 20; for every input that `ProbeFASTQ` scans to the end the number of reads in
the tiles 180..200 of threshold 15 is at least the number of reads in tile 200 of threshold 20,
and with at least one read `HQcov[3] >= HQcov[0]` holds for the `double` values. Of the three
pie-chart values the poor one (`HQcov[4]`) and the high one (`HQcov[0]`) are non-negative, the
medium one (`1.0-HQcov[4]-HQcov[0]`) is at least `-2^-54`, and the three add up to 1 with an
error of at most `2^-54`. -/
theorem C15_pie_categories (input : List (List Byte)) (s : Agg)
    (h : ProbeFASTQ input = .done s) :
    (∀ q : List Byte, tileOf 20 q ≤ tileOf 15 q) ∧
      tileCount s 1 200 ≤ ∑ t in Finset.Icc 180 200, tileCount s 0 t ∧
      (0 < s.ReadCount →
        (HQcovD s).getD 0 0 ≤ (HQcovD s).getD 3 0 ∧
        ∃ poor medium high : ℚ, pieChart s = [poor, medium, high] ∧
          0 ≤ poor ∧ -(2 : ℚ) ^ (-54 : ℤ) ≤ medium ∧ 0 ≤ high ∧
          |poor + medium + high - 1| ≤ (2 : ℚ) ^ (-54 : ℤ)) := by
  have hle := scan_done_tile_le input s h
  have hH : (200 : Nat) = HiQCellSize := rfl
  refine ⟨tileOf_20_le_15, ?_, ?_⟩
  · rw [← cumuCnt_200, hH, ← cumuCnt_eq_sum s 0 180 (by decide)]
    exact hle
  · intro hR
    have hb := cumuCnt_le_ReadCount input s h 0 180 (by decide)
    have hz := ratio_bounds hR hb
    have hxy := ratio_mono s.ReadCount hle
    have hx0 : 0 ≤ fl (toDouble (cumuCnt s 1 200) / toDouble s.ReadCount) :=
      fl_nonneg (ratio_bounds hR (hle.trans hb)).1
    obtain ⟨p0, _, _, pm, ps⟩ := pie_values _ _ hz.1 hz.2 hx0 hxy
    have e0 : (HQcovD s).getD 0 0
        = fl (toDouble (cumuCnt s 1 200) / toDouble s.ReadCount) := by
      rw [HQcovD_eq]
      rfl
    have e3 : (HQcovD s).getD 3 0
        = fl (toDouble (cumuCnt s 0 180) / toDouble s.ReadCount) := by
      rw [HQcovD_eq]
      rfl
    have e4 : (HQcovD s).getD 4 0
        = fl (1 - fl (toDouble (cumuCnt s 0 180) / toDouble s.ReadCount)) := by
      rw [HQcovD_eq]
      rfl
    refine ⟨by rw [e0, e3]; exact hxy, _, _, _, rfl, ?_, ?_, ?_, ?_⟩
    · rw [e4]
      exact p0
    · rw [e4, e0]
      exact pm
    · rw [e0]
      exact hx0
    · rw [e4, e0]
      exact ps

set_option maxRecDepth 100000 in
/-- C15, amended, at the end-to-end scenario: of the two reads one is poor and one is high. -/
theorem C15_witness :
    ProbeFASTQ twoReads = .done (finalAgg twoReads) ∧
      (finalAgg twoReads).ReadCount = 2 ∧
      tileCount (finalAgg twoReads) 1 200
        ≤ ∑ t in Finset.Icc 180 200, tileCount (finalAgg twoReads) 0 t ∧
      (HQcovD (finalAgg twoReads)).getD 0 0 ≤ (HQcovD (finalAgg twoReads)).getD 3 0 ∧
      ∃ poor medium high : ℚ, pieChart (finalAgg twoReads) = [poor, medium, high] ∧
        0 ≤ poor ∧ -(2 : ℚ) ^ (-54 : ℤ) ≤ medium ∧ 0 ≤ high ∧
        |poor + medium + high - 1| ≤ (2 : ℚ) ^ (-54 : ℤ) :=
  ⟨by decide, by decide, (C15_pie_categories twoReads (finalAgg twoReads) (by decide)).2.1,
    (C15_pie_categories twoReads (finalAgg twoReads) (by decide)).2.2 (by decide)⟩

end SQUAT
